import Mathlib

/-!
# Verification of `nwb_conversion_tools/utils/spike_interface.py`

A shallow embedding of the NWB-builder functions of the repository
(`add_devices`, `add_electrode_groups`, `add_electrodes`,
`add_electrical_series`, `add_epochs`) together with proofs about the
spec-level claims on them.

Modelling conventions:
* Python dictionaries with string keys are association lists (`Dict`),
  assignment overwrites in place (`dictSet`), membership is key membership.
* Fallible Python code returns `Except PyErr`; `warnings.warn` calls are
  collected in a `List Warning`.
* numpy scalars are `Rat` (exact); `np.nan` is the dedicated value
  `PVal.nan` (the code only uses NaN as a fill marker, never arithmetic).
* Machine-integer traces are unbounded `Int` (no claim concerns numpy
  wraparound).
* `str(n)` on a nonnegative Python int is `pyStr`.
-/

namespace SpikeInterface

/-- A Python value appearing in channel properties, metadata columns and
electrode-table cells: a string, an (exact) number, `np.nan`, or a reference
to a `pynwb` `ElectrodeGroup` object (identified by its unique name). -/
inductive PVal where
  | str (s : String)
  | num (q : Rat)
  | nan
  | groupRef (g : String)
deriving DecidableEq, Repr

/-- Python `isinstance(v, str)`. -/
def PVal.isStr : PVal → Bool
  | .str _ => true
  | _ => false

/-- Python string dictionary as an association list (insertion ordered). -/
abbrev Dict (α : Type) := List (String × α)

/-- Python `d[k]` lookup (first binding wins; `dictSet` keeps keys unique). -/
def dictGet {α : Type} (d : Dict α) (k : String) : Option α :=
  (d.find? (fun p => p.1 = k)).map Prod.snd

/-- Python `k in d`. -/
def dictHas {α : Type} (d : Dict α) (k : String) : Bool :=
  d.any (fun p => p.1 = k)

/-- Python `d[k] = v`: overwrite in place if the key exists, else append. -/
def dictSet {α : Type} (d : Dict α) (k : String) (v : α) : Dict α :=
  match d with
  | [] => [(k, v)]
  | p :: rest => if p.1 = k then (k, v) :: rest else p :: dictSet rest k v

/-- `list_get(li, idx, default)` from the source: safe index retrieval. -/
def list_get {α : Type} (li : List α) (idx : Nat) (default : α) : α :=
  match li.get? idx with
  | some v => v
  | none => default

/-- Little-endian base-10 digits with explicit fuel (structurally
recursive, so that it evaluates in the kernel). -/
def natDigitsAux : Nat → Nat → List Nat
  | 0, _ => []
  | fuel + 1, n => if n = 0 then [] else (n % 10) :: natDigitsAux fuel (n / 10)

/-- Little-endian base-10 digits (`n` itself is enough fuel). -/
def natDigits (n : Nat) : List Nat := natDigitsAux n n

/-- Python `str(n)` for a nonnegative int.
`pyStr 0 = "0"`, `pyStr 17 = "17"`. -/
def pyStr (n : Nat) : String :=
  if n = 0 then "0" else ⟨((natDigits n).reverse.map Nat.digitChar)⟩

/-- `np.unique` on a list of nonnegative ints: sorted with duplicates removed.
Implemented by insertion into a sorted duplicate-free list. -/
def insertSorted (n : Nat) : List Nat → List Nat
  | [] => [n]
  | m :: ms =>
    if n < m then n :: m :: ms
    else if n = m then m :: ms
    else m :: insertSorted n ms

/-- `np.unique(...)`. -/
def npUnique (l : List Nat) : List Nat := l.foldr insertSorted []

/-- Exceptions raised by the modelled code. -/
inductive PyErr where
  | keyError (k : String)
  | attributeError (msg : String)
  | assertionError (msg : String)
  | valueError (msg : String)
  | indexError
  | notImplementedError (msg : String)
deriving DecidableEq, Repr

/-- `warnings.warn` calls issued by the modelled code. -/
inductive Warning where
  | deviceNotDetected (name : String)
  | moreThanOneDevice (name : String)
  | electrodeGroupNotFound (channel : Nat)
  | noGroupMetadata (channel : Nat)
  | unsignedOffsets
deriving DecidableEq, Repr

/-- The recording-extractor interface consumed by the builders
(`spikeextractors.RecordingExtractor`). Channel ids are nonnegative ints.
`props c` is the per-channel property dictionary
(`get_channel_property_names` / `get_channel_property`); `groups c` is
`get_channel_groups(channel_ids=c)[0]`; `locations c` is
`get_channel_locations(channel_ids=c)[0]` with `none` for `np.nan` entries.
`traces c` are the raw (unscaled) per-channel samples;
`scaledTraces c` the scaled ones; `traces_memmap` says whether
`get_traces(...)` returns an `np.memmap`. -/
structure Recording where
  channel_ids : List Nat
  props : Nat → Dict PVal
  groups : Nat → Nat
  locations : Nat → List (Option Rat)
  gain : Nat → Rat
  offset : Nat → Rat
  dtypeName : String
  dtype_itemsize : Nat
  traces : Nat → List Int
  scaledTraces : Nat → List Rat
  traces_memmap : Bool
  epoch_names : List String
  epoch_start : String → Int
  epoch_end : String → Int
  frame_to_time : Int → Rat

/-- A `pynwb` `Device` (name is the key in `nwbfile.devices`). -/
structure Device where
  name : String
  description : String
deriving DecidableEq, Repr

/-- A `pynwb` `ElectrodeGroup`; `device` is the name of the linked device. -/
structure ElectrodeGroup where
  name : String
  description : String
  location : String
  device : String
deriving DecidableEq, Repr

/-- One row of the electrodes table. The `id` kwarg is kept as a dedicated
field (it is the row key); all other `add_electrode` kwargs live in
`kwargs`. -/
structure ElectrodeRow where
  id : Nat
  kwargs : Dict PVal
deriving DecidableEq, Repr

/-- The electrodes `DynamicTable`: custom columns (name, description) added
via `add_electrode_column`, plus rows. -/
structure ElectrodesTable where
  colnames : List (String × String)
  rows : List ElectrodeRow
deriving DecidableEq, Repr

/-- One row of `nwbfile.epochs`. -/
structure EpochRow where
  start_time : Rat
  stop_time : Rat
  tags : List String
deriving DecidableEq, Repr

/-- The parts of a `pynwb.NWBFile` touched by the builders. `electrodes` and
`epochs` are `none` until first created, as in `pynwb`. -/
structure NWBFile where
  devices : List Device
  electrode_groups : List ElectrodeGroup
  electrodes : Option ElectrodesTable
  epochs : Option (List EpochRow)
deriving DecidableEq, Repr

def deviceNames (n : NWBFile) : List String := n.devices.map Device.name

def groupNames (n : NWBFile) : List String :=
  n.electrode_groups.map ElectrodeGroup.name

def lookupDevice (n : NWBFile) (name : String) : Option Device :=
  n.devices.find? (fun d => d.name = name)

def lookupGroup (n : NWBFile) (name : String) : Option ElectrodeGroup :=
  n.electrode_groups.find? (fun g => g.name = name)

/-- One element of `metadata['Ecephys']['Device']`: a Python dict whose
possible keys are `name` and `description` (`none` = key absent). -/
structure DeviceMeta where
  name : Option String
  description : Option String
deriving DecidableEq, Repr

/-- The keys of a `DeviceMeta` dict, in Python iteration order. -/
def DeviceMeta.keys (d : DeviceMeta) : List String :=
  (if d.name.isSome then ["name"] else []) ++
    (if d.description.isSome then ["description"] else [])

/-- The value stored under `metadata['Ecephys']['Device']`. The code at
`add_electrode_groups` erroneously stores a plain dict there (instead of a
list of dicts), so the slot is a sum. -/
inductive DeviceSlot where
  | list (l : List DeviceMeta)
  | dict (d : DeviceMeta)
deriving DecidableEq, Repr

/-- One element of `metadata['Ecephys']['ElectrodeGroup']`. -/
structure GroupMeta where
  name : Option String
  description : Option String
  location : Option String
  device : Option String
deriving DecidableEq, Repr

/-- One element of `metadata['Ecephys']['Electrodes']` (a column spec).
`name` is `none` after the code `pop`s it. -/
structure ElecColMeta where
  name : Option String
  description : Option String
  dat : Option (List PVal)
deriving DecidableEq, Repr

/-- `metadata['Ecephys']`. -/
structure EcephysMeta where
  device : Option DeviceSlot
  electrodeGroup : Option (List GroupMeta)
  electrodes : Option (List ElecColMeta)
deriving DecidableEq, Repr

/-- The metadata dictionary (only the `Ecephys` section is consumed by the
modelled builders). -/
structure Metadata where
  ecephys : Option EcephysMeta
deriving DecidableEq, Repr

/-! ## `add_devices` (source lines 128-176) -/

/-- `defaults = dict(name="Device", description="Ecephys probe.")`. -/
def deviceDefaults : DeviceMeta := ⟨some "Device", some "Ecephys probe."⟩

/-- `dict(defaults, **dev)` followed by `create_device`. -/
def mergeDevice (dev : DeviceMeta) : Device :=
  ⟨dev.name.getD "Device", dev.description.getD "Ecephys probe."⟩

/-- `dev.get('name', defaults['name'])`. -/
def devMetaName (dev : DeviceMeta) : String := dev.name.getD "Device"

/-- The loop `for dev in metadata['Ecephys']['Device']` over a list of
device dicts: create each device whose (defaulted) name is not yet
present. -/
def addDevicesListLoop : NWBFile → List DeviceMeta → NWBFile
  | nwb, [] => nwb
  | nwb, dev :: rest =>
    if devMetaName dev ∈ deviceNames nwb then addDevicesListLoop nwb rest
    else
      addDevicesListLoop { nwb with devices := nwb.devices ++ [mergeDevice dev] }
        rest

/-- The loop `for dev in metadata['Ecephys']['Device']` of `add_devices`.
When the slot holds a plain dict (as in the broken synthesis call of
`add_electrode_groups`), Python iterates its *keys*; the first key is a
`str`, and `dev.get(...)` raises `AttributeError`. -/
def addDevicesLoop (nwb : NWBFile) : DeviceSlot → Except PyErr NWBFile
  | .dict d =>
    if d.keys.isEmpty then .ok nwb
    else .error (.attributeError "'str' object has no attribute 'get'")
  | .list l => .ok (addDevicesListLoop nwb l)

/-- The device list `add_devices` ends up looping over: `None` metadata and a
missing `Device` key both rebind `metadata` to `dict(Ecephys=dict(
Device=[defaults]))` (the rebinding is local, the caller's dict is never
mutated by `add_devices`); a metadata dict without an `Ecephys` key raises
`KeyError` at `'Device' not in metadata['Ecephys']`. -/
def effectiveDeviceSlot (metadata : Option Metadata) : Except PyErr DeviceSlot :=
  match metadata with
  | none => .ok (.list [deviceDefaults])
  | some m =>
    match m.ecephys with
    | none => .error (.keyError "Ecephys")
    | some e =>
      match e.device with
      | none => .ok (.list [deviceDefaults])
      | some slot => .ok slot

/-- `add_devices(recording, nwbfile, metadata)`. The `recording` argument is
unused by the source function. Caller-passed metadata is never mutated. -/
def add_devices (_recording : Recording) (nwb : NWBFile)
    (metadata : Option Metadata) : Except PyErr NWBFile := do
  let slot ← effectiveDeviceSlot metadata
  addDevicesLoop nwb slot

/-! ## `add_electrode_groups` (source lines 179-265) -/

/-- One element of the computed `defaults` list (all keys present). -/
structure GroupDefault where
  name : String
  description : String
  location : String
  device : String
deriving DecidableEq, Repr

/-- `np.unique(recording.get_channel_groups())`. -/
def uniqueGroupIds (r : Recording) : List Nat :=
  npUnique (r.channel_ids.map r.groups)

/-- The `defaults` list comprehension: one entry per unique channel group;
its `device` field indexes `[i.name for i in nwbfile.devices.values()][0]`,
which raises `IndexError` when there are no devices (and is not evaluated
when there are no groups). -/
def buildGroupDefaults (nwb : NWBFile) (gids : List Nat) :
    Except PyErr (List GroupDefault) :=
  match gids with
  | [] => .ok []
  | _ =>
    match nwb.devices.head? with
    | none => .error .indexError
    | some d0 =>
      .ok (gids.map fun gid =>
        ⟨pyStr gid, "no description", "unknown", d0.name⟩)

/-- `dict(defaults[0], **grp)` (before the `device` object is substituted). -/
def mergeGroup (d0 : GroupDefault) (grp : GroupMeta) : ElectrodeGroup :=
  ⟨grp.name.getD d0.name, grp.description.getD d0.description,
    grp.location.getD d0.location, grp.device.getD d0.device⟩

/-- The metadata passed to `add_devices` when a linked device is missing:
`dict(Ecephys=dict(Device=dict(name=device_name)))` — note the plain dict. -/
def missingDeviceMetadata (device_name : String) : Metadata :=
  ⟨some ⟨some (.dict ⟨some device_name, none⟩), none, none⟩⟩

/-- The loop `for grp in metadata['Ecephys']['ElectrodeGroup']`.
`defaults[0]` is evaluated on every iteration (`IndexError` when the
defaults list is empty and the loop body runs). -/
def addGroupsLoop (r : Recording) (d0? : Option GroupDefault) :
    NWBFile → List Warning → List GroupMeta →
    Except PyErr (NWBFile × List Warning)
  | nwb, ws, [] => .ok (nwb, ws)
  | nwb, ws, grp :: rest => do
    let d0 ← match d0? with
      | some d => pure d
      | none => .error .indexError
    if grp.name.getD d0.name ∈ groupNames nwb then
      addGroupsLoop r d0? nwb ws rest
    else do
      let device_name := grp.device.getD d0.device
      let (nwb, ws) ←
        if device_name ∈ deviceNames nwb then pure (nwb, ws)
        else do
          let nwb ← add_devices r nwb (some (missingDeviceMetadata device_name))
          pure (nwb, ws ++ [Warning.deviceNotDetected device_name])
      let g0 := mergeGroup d0 grp
      match lookupDevice nwb device_name with
      | none => .error (.keyError device_name)
      | some dv =>
        let g := { g0 with device := dv.name }
        addGroupsLoop r d0? { nwb with
          electrode_groups := nwb.electrode_groups ++ [g] } ws rest

/-- The fallback `if not nwbfile.electrode_groups:` block (lines 253-265):
creates one group per unique channel group from `defaults[0]`, linked to the
first device. -/
def addGroupsFallback (r : Recording) (d0? : Option GroupDefault)
    (nwb : NWBFile) (ws : List Warning) :
    Except PyErr (NWBFile × List Warning) := do
  let dname ← match nwb.devices.head? with
    | some d => pure d.name
    | none => .error .indexError
  let ws := if nwb.devices.length > 1
    then ws ++ [Warning.moreThanOneDevice dname] else ws
  let d0 ← match d0? with
    | some d => pure d
    | none => .error .indexError
  let gs := (uniqueGroupIds r).map fun gid =>
    ({ name := pyStr gid, description := d0.description,
       location := d0.location, device := dname } : ElectrodeGroup)
  .ok ({ nwb with electrode_groups := nwb.electrode_groups ++ gs }, ws)

/-- `add_electrode_groups(recording, nwbfile, metadata)`. Returns the new
file, the metadata as the *caller* observes it afterwards (the code inserts
`'Ecephys'` and `'ElectrodeGroup'` into a passed dict; a `None` argument is
rebound locally and the caller keeps `None`), and the warnings issued. -/
def add_electrode_groups (r : Recording) (nwb : NWBFile)
    (metadata : Option Metadata) :
    Except PyErr (NWBFile × Option Metadata × List Warning) := do
  let nwb ← if nwb.devices.isEmpty then add_devices r nwb none else pure nwb
  let e : EcephysMeta :=
    (metadata.map (fun m => m.ecephys.getD ⟨none, none, none⟩)).getD
      ⟨none, none, none⟩
  let gids := uniqueGroupIds r
  let defaults ← buildGroupDefaults nwb gids
  let grpList := e.electrodeGroup.getD (defaults.map fun d =>
    (⟨some d.name, some d.description, some d.location, some d.device⟩ :
      GroupMeta))
  let e' := { e with electrodeGroup := some grpList }
  let (nwb, ws) ← addGroupsLoop r defaults.head? nwb [] grpList
  let (nwb, ws) ←
    if nwb.electrode_groups.isEmpty then addGroupsFallback r defaults.head? nwb ws
    else pure (nwb, ws)
  .ok (nwb, metadata.map (fun m => { m with ecephys := some e' }), ws)

/-! ## `add_electrodes` (source lines 268-455) -/

/-- The `defaults` dict of `add_electrodes`. -/
def defaultEFields : Dict PVal :=
  [("x", .nan), ("y", .nan), ("z", .nan), ("imp", .num (-1)),
   ("location", .str "unknown"), ("filtering", .str "none"),
   ("group_name", .str "0")]

def defaultEFieldNames : List String := defaultEFields.map Prod.fst

/-- One entry of `elec_columns` (`dict(description=..., data=...)`;
`dat = none` models a dict without a `data` key). -/
structure ColData where
  description : String
  dat : Option (List PVal)
deriving DecidableEq, Repr

/-- `Except`-returning list indexing (Python `l[i]`). -/
def getIdx {α : Type} (l : List α) (i : Nat) : Except PyErr α :=
  match l.get? i with
  | some v => .ok v
  | none => .error .indexError

/-- Python `str(n)` on an int. -/
def intStr (i : Int) : String :=
  if i < 0 then "-" ++ pyStr i.natAbs else pyStr i.natAbs

/-- Python `str(v)` on a modelled value. (The textual form of a non-integer
float is not claim-relevant and is rendered as `num/den`.) -/
def pvalStr : PVal → String
  | .str s => s
  | .num q => if q.den = 1 then intStr q.num else intStr q.num ++ "/" ++ pyStr q.den
  | .nan => "nan"
  | .groupRef g => g

/-- The body of the data-collection loop over channels for one property
(source lines 364-372): append the channel's value when present; otherwise
append a fill value — `''` if the previously appended entry is a string,
`np.nan` if it is not — but only when something was already appended
(`len(data) > 0`). -/
def collectStep (r : Recording) (prop : String) (data : List PVal) (ch : Nat) :
    List PVal :=
  match dictGet (r.props ch) prop with
  | some v => data ++ [v]
  | none =>
    match data.getLast? with
    | some last => if last.isStr then data ++ [PVal.str ""] else data ++ [PVal.nan]
    | none => data

/-- The per-column data array for one property. -/
def collectPropData (r : Recording) (prop : String) : List PVal :=
  r.channel_ids.foldl (collectStep r prop) []

/-- The union of channel property names (a Python `set`, modelled in
first-insertion order; no claim depends on the iteration order). -/
def propertyNames (r : Recording) : List String :=
  r.channel_ids.foldl
    (fun acc ch => acc ++ (((r.props ch).map Prod.fst).filter (fun p => p ∉ acc)))
    []

def excludedProps (exclude : List String) : List String :=
  ["gain", "offset", "location", "name"] ++ exclude

/-- The property half of `elec_columns` (source lines 353-375), with the
`brain_area → location` and `group → group_name` renames. -/
def buildPropColumns (r : Recording) (exclude : List String) : Dict ColData :=
  (propertyNames r).foldl
    (fun cols prop =>
      if prop ∈ excludedProps exclude then cols
      else
        let data := collectPropData r prop
        let prop := if prop = "brain_area" then "location" else prop
        let prop := if prop = "group" then "group_name" else prop
        dictSet cols prop ⟨prop, some data⟩)
    []

/-- In-place mutation of an existing dict entry. -/
def dictModify {α : Type} (d : Dict α) (k : String) (f : α → α) : Dict α :=
  match d with
  | [] => []
  | p :: rest => if p.1 = k then (k, f p.2) :: rest else p :: dictModify rest k f

/-- The loop `for x in metadata['Ecephys']['Electrodes']` (source lines
377-385): `x.pop('name')` (mutating the caller's dicts — the returned list
is the mutated one), then merge description/data into `elec_columns`.
`assert len(x['data']) == recording.get_num_channels()`. -/
def applyMetaColumns (numChannels : Nat) :
    Dict ColData → List ElecColMeta → List ElecColMeta →
    Except PyErr (Dict ColData × List ElecColMeta)
  | cols, acc, [] => .ok (cols, acc)
  | cols, acc, x :: rest => do
    let name ← match x.name with
      | some n => pure n
      | none => .error (.keyError "name")
    let cols := if dictHas cols name then cols else dictSet cols name ⟨name, none⟩
    let cols := match x.description with
      | some ds => dictModify cols name (fun cd => { cd with description := ds })
      | none => cols
    match x.dat with
    | some dd =>
      if dd.length = numChannels then
        applyMetaColumns numChannels
          (dictModify cols name (fun cd => { cd with dat := some dd }))
          (acc ++ [{ x with name := none }]) rest
      else .error (.assertionError "len(x['data']) == recording.get_num_channels()")
    | none => applyMetaColumns numChannels cols (acc ++ [{ x with name := none }]) rest

/-- Source lines 387-389: `ValueError` for a non-default column whose dict
has no `data` key. -/
def checkColumnsData : Dict ColData → Except PyErr Unit
  | [] => .ok ()
  | (name, cd) :: rest =>
    if cd.dat = none ∧ name ∉ defaultEFieldNames then
      .error (.valueError ("no data for electrode column " ++ name))
    else checkColumnsData rest

/-- `nwbfile.add_electrode_column` (creates the electrodes table when it
does not exist yet, as `pynwb` does). -/
def addElectrodeColumn (nwb : NWBFile) (name desc : String) : NWBFile :=
  match nwb.electrodes with
  | none => { nwb with electrodes := some ⟨[(name, desc)], []⟩ }
  | some t =>
    { nwb with electrodes := some { t with colnames := t.colnames ++ [(name, desc)] } }

/-- Source lines 391-393: add a table column for every non-default name. -/
def addColumnsLoop (nwb : NWBFile) (cols : Dict ColData) : NWBFile :=
  cols.foldl
    (fun nwb p =>
      if p.1 ∈ defaultEFieldNames then nwb
      else addElectrodeColumn nwb p.1 p.2.description)
    nwb

/-- `nwbfile.electrodes.id.data[:]` (empty when the table does not exist). -/
def nwbElecIds (nwb : NWBFile) : List Nat :=
  match nwb.electrodes with
  | none => []
  | some t => t.rows.map ElectrodeRow.id

/-- `nwbfile.add_electrode(**electrode_kwargs)` (creates the table when
absent). The `id` kwarg is the dedicated row field. -/
def appendElectrodeRow (nwb : NWBFile) (row : ElectrodeRow) : NWBFile :=
  match nwb.electrodes with
  | none => { nwb with electrodes := some ⟨[], [row]⟩ }
  | some t => { nwb with electrodes := some { t with rows := t.rows ++ [row] } }

/-- `missing_group_metadata` (source lines 417-426). -/
def missingGroupMetadata (group_name : String) : Metadata :=
  ⟨some ⟨none,
    some [⟨some group_name, some "no description", some "unknown", some "Device"⟩],
    none⟩⟩

/-- The loop `for name, desc in elec_columns.items()` inside the per-channel
loop (source lines 411-435). The call
`se.NwbRecordingExtractor.add_electrode_groups` at line 427 is the
spikeextractors twin of this module's `add_electrode_groups` and is modelled
by it. -/
def elecColumnsFold (r : Recording) (j : Nat) (ch : Nat) :
    Dict PVal → NWBFile → List Warning → Dict ColData →
    Except PyErr (Dict PVal × NWBFile × List Warning)
  | kwargs, nwb, ws, [] => .ok (kwargs, nwb, ws)
  | kwargs, nwb, ws, (name, desc) :: restCols => do
    if name = "group_name" then do
      let dd ← match desc.dat with
        | some dd => pure dd
        | none => .error (.keyError "data")
      let group_name := pvalStr (list_get dd j (PVal.str "0"))
      let (nwb, ws) ←
        if group_name ∈ groupNames nwb then pure (nwb, ws)
        else do
          let ws := ws ++ [Warning.electrodeGroupNotFound ch]
          let (nwb, _md, ws2) ←
            add_electrode_groups r nwb (some (missingGroupMetadata group_name))
          pure (nwb, ws ++ ws2)
      match lookupGroup nwb group_name with
      | none => .error (.keyError group_name)
      | some g =>
        elecColumnsFold r j ch
          (dictSet (dictSet kwargs "group" (.groupRef g.name))
            "group_name" (.str group_name))
          nwb ws restCols
    else
      match desc.dat with
      | some dd => do
        let v ← getIdx dd j
        elecColumnsFold r j ch (dictSet kwargs name v) nwb ws restCols
      | none => elecColumnsFold r j ch kwargs nwb ws restCols

/-- The per-channel loop `for j, channel_id in enumerate(...)` (source lines
395-453). `ids0` is the snapshot `nwb_elec_ids` taken before the loop. -/
def addElectrodesLoop (r : Recording) (elecCols : Dict ColData)
    (metaElectrodes : List ElecColMeta) (ids0 : List Nat) :
    Nat → List Nat → NWBFile → List Warning →
    Except PyErr (NWBFile × List Warning)
  | _, [], nwb, ws => .ok (nwb, ws)
  | j, ch :: rest, nwb, ws =>
    if ch ∈ ids0 then
      addElectrodesLoop r elecCols metaElectrodes ids0 (j + 1) rest nwb ws
    else do
      let kwargs := defaultEFields
      -- rel_x / rel_y from get_channel_locations when no entry is NaN
      let location := r.locations ch
      let kwargs ←
        if location.all Option.isSome then do
          let l0 ← getIdx location 0
          let l1 ← getIdx location 1
          -- the guard ensures both entries are non-NaN
          pure (dictSet (dictSet kwargs "rel_x" (.num (l0.getD 0)))
            "rel_y" (.num (l1.getD 0)))
        else pure kwargs
      let (kwargs, nwb, ws) ← elecColumnsFold r j ch kwargs nwb ws elecCols
      -- `x.get('name', '') == 'group_name'` over the (name-popped) metadata
      if metaElectrodes.any (fun x => x.name.getD "" = "group_name") then
        addElectrodesLoop r elecCols metaElectrodes ids0 (j + 1) rest
          (appendElectrodeRow nwb ⟨ch, kwargs⟩) ws
      else
        let group_id := r.groups ch
        if pyStr group_id ∈ groupNames nwb then
          let kwargs := dictSet (dictSet kwargs "group" (.groupRef (pyStr group_id)))
            "group_name" (.str (pyStr group_id))
          addElectrodesLoop r elecCols metaElectrodes ids0 (j + 1) rest
            (appendElectrodeRow nwb ⟨ch, kwargs⟩) ws
        else
          addElectrodesLoop r elecCols metaElectrodes ids0 (j + 1) rest nwb
            (ws ++ [Warning.noGroupMetadata ch])

/-- `add_electrodes(recording, nwbfile, metadata, write_scaled, exclude)`.
`write_scaled` is accepted but unused by the source function. The call
`se.NwbRecordingExtractor.add_electrode_groups` at line 314 is modelled by
this module's `add_electrode_groups`. Returns the new file, the metadata as
the caller observes it afterwards, and the warnings issued. pynwb ≥ 1.3.0 is
assumed (required by `write_recording`), so the `rel_x`/`rel_y` pre-columns
for older pynwb are not modelled. -/
def add_electrodes (r : Recording) (nwb : NWBFile) (metadata : Option Metadata)
    (_write_scaled : Bool := true) (exclude : List String := []) :
    Except PyErr (NWBFile × Option Metadata × List Warning) := do
  let (nwb, metadata, ws) ←
    if nwb.electrode_groups.isEmpty then add_electrode_groups r nwb metadata
    else pure (nwb, metadata, ([] : List Warning))
  let e : EcephysMeta :=
    (metadata.map (fun m => m.ecephys.getD ⟨none, none, none⟩)).getD
      ⟨none, none, none⟩
  let elist := e.electrodes.getD []
  if ¬ elist.all (fun x => x.name.isSome && x.description.isSome && x.dat.isSome) then
    .error (.assertionError
      "Expected metadata[Ecephys][Electrodes] to be a list of dictionaries!")
  else if ¬ elist.all (fun x => x.name ≠ some "group") then
    .error (.assertionError
      "Passing metadata field 'group' is deprecated; pass group_name instead!")
  else do
    let nwb_elec_ids := nwbElecIds nwb
    let cols := buildPropColumns r exclude
    let (cols, elist') ← applyMetaColumns r.channel_ids.length cols [] elist
    checkColumnsData cols
    let nwb := addColumnsLoop nwb cols
    let (nwb, ws2) ← addElectrodesLoop r cols elist' nwb_elec_ids 0 r.channel_ids nwb []
    if nwb.electrodes.isNone then
      .error (.assertionError "Unable to form electrode table!")
    else
      let e' := { e with electrodes := some elist' }
      .ok (nwb, metadata.map (fun m => { m with ecephys := some e' }), ws ++ ws2)

/-! ## `add_electrical_series` (source lines 458-650)

Only the parts a claim depends on are modelled: the `buffer_mb` assertion,
the `add_electrodes` fallback, the electrode-table region, the
gain/offset/coercion logic, the conversion kwargs and the choice and content
of the data iterator (source lines 502-508 and 565-627). The `write_as`
destination branching, series naming and processing-module bookkeeping
(lines 510-562) and the final placement (lines 629-650) are not modelled. -/

/-- One `yield` of `data_generator`: per-channel data with its dtype. -/
inductive Chunk where
  | raw (dtype : String) (vals : List Int)
  | scaled (vals : List Rat)
deriving DecidableEq, Repr

/-- The `DataChunkIterator` handed to `H5DataIO`. -/
inductive EphysData where
  | memmapIter (buffer_size : Nat)
  | generatorIter (chunks : List Chunk)
deriving DecidableEq, Repr

/-- The outcome of `add_electrical_series` relevant to the claims. -/
structure ESOut where
  nwb : NWBFile
  conversion : Rat
  channel_conversion : Option (List Rat)
  ephys_data : EphysData
  warns : List Warning
deriving DecidableEq, Repr

/-- `s.startswith(pre)` on the underlying character lists. -/
def charsStartWith : List Char → List Char → Bool
  | _, [] => true
  | [], _ :: _ => false
  | c :: cs, p :: ps => c == p && charsStartWith cs ps

/-- `data_dtype_name[1:]` when the name starts with `uint` ("Retain memory
of signed data type"), on the character-list level. -/
def stripUnsigned (dtypeName : String) : String :=
  if charsStartWith dtypeName.data "uint".data then ⟨dtypeName.data.drop 1⟩
  else dtypeName

/-- Truthiness of `nwbfile.electrodes` (`None` and an empty table are
falsy). -/
def nwbHasElectrodeRows (nwb : NWBFile) : Bool :=
  match nwb.electrodes with
  | none => false
  | some t => ¬ t.rows.isEmpty

/-- `[list(nwbfile.electrodes.id[:]).index(id) for id in channel_ids]`
(`.index` raises `ValueError` for a missing id). -/
def tableRegionIds (nwb : NWBFile) (r : Recording) : Except PyErr (List Nat) :=
  match nwb.electrodes with
  | none => .error (.attributeError "id")
  | some t =>
    r.channel_ids.mapM (fun ch =>
      match (t.rows.map ElectrodeRow.id).findIdx? (fun v => v = ch) with
      | some i => .ok i
      | none => .error (.valueError "is not in list"))

/-- `unsigned_coercion = channel_offset / channel_conversion` (line 578). -/
def unsignedCoercion (r : Recording) : List Rat :=
  r.channel_ids.map (fun ch => r.offset ch / r.gain ch)

/-- The `conversion` / `channel_conversion` kwargs (source lines 590-597).
`1e-6` is modelled as the exact `1/1000000`; `len(np.unique(...)) == 1`
("all gains are equal") is `dedup.length = 1`, whose guard makes `headD`'s
default unreachable. -/
def esConversionKwargs (r : Recording) (write_scaled : Bool) :
    Rat × Option (List Rat) :=
  let channel_conversion := r.channel_ids.map r.gain
  if write_scaled then ((1 : Rat) / 1000000, none)
  else if channel_conversion.dedup.length = 1 then
    ((channel_conversion.headD 0) * ((1 : Rat) / 1000000), none)
  else ((1 : Rat) / 1000000, some channel_conversion)

/-- The data iterator (source lines 599-627): the memory-mapped bulk
iterator exactly when `get_traces` returns a memmap AND every channel
offset is zero; otherwise the per-channel generator, which for
`write_scaled=False` adds `unsigned_coercion[i]` to each channel's data and
keeps the signed version of the dtype (`data_dtype_name[1:]`). numpy
integer wraparound in the addition / `astype` is not modelled (values are
exact integers). -/
def esEphysData (r : Recording) (buffer_mb : Nat) (write_scaled : Bool) :
    EphysData :=
  if r.traces_memmap && (r.channel_ids.map r.offset).all (fun q => q == 0) then
    EphysData.memmapIter
      ((buffer_mb * 1000000) / (r.channel_ids.length * r.dtype_itemsize))
  else
    EphysData.generatorIter
      ((r.channel_ids.zip ((unsignedCoercion r).map Rat.num)).map (fun p =>
        if write_scaled then Chunk.scaled (r.scaledTraces p.1)
        else Chunk.raw (stripUnsigned r.dtypeName)
          ((r.traces p.1).map (fun v => v + p.2))))

/-- Source lines 576-627: raise `NotImplementedError` unless every
`offset/gain` quotient is an integer; warn when some quotient is nonzero
(`.astype(int)` is value-faithful to `map Rat.num` since every denominator
is 1); then assemble the conversion kwargs and the data iterator. -/
def esSeriesCore (r : Recording) (nwb : NWBFile) (buffer_mb : Nat)
    (write_scaled : Bool) : Except PyErr ESOut :=
  if ¬ (unsignedCoercion r).all (fun q => q.den = 1) then
    .error (.notImplementedError
      "Unable to coerce underlying unsigned data type to signed type, which is currently required for NWB Schema v2.2.5!")
  else
    .ok ⟨nwb, (esConversionKwargs r write_scaled).1,
      (esConversionKwargs r write_scaled).2,
      esEphysData r buffer_mb write_scaled,
      if (unsignedCoercion r).any (fun q => q ≠ 0)
        then [Warning.unsignedOffsets] else []⟩

/-- `add_electrical_series(recording, nwbfile, metadata, buffer_mb, ...,
write_scaled)` restricted to the claim-relevant outcome: the `buffer_mb`
assertion, the `add_electrodes` fallback, the electrode-table region, then
`esSeriesCore`. `use_times`, `write_as` and `es_key` do not affect the
modelled outcome. -/
def add_electrical_series (r : Recording) (nwb : NWBFile)
    (metadata : Option Metadata) (buffer_mb : Nat := 500)
    (write_scaled : Bool := false) : Except PyErr ESOut := do
  if buffer_mb ≤ 10 then
    .error (.assertionError "'buffer_mb' should be at least 10MB to ensure data can be chunked!")
  else do
    let (nwb, ws0) ←
      if nwbHasElectrodeRows nwb then pure (nwb, ([] : List Warning))
      else do
        let (nwb, _md, ws) ← add_electrodes r nwb metadata
        pure (nwb, ws)
    let _tids ← tableRegionIds nwb r
    match esSeriesCore r nwb buffer_mb write_scaled with
    | .error e => .error e
    | .ok out => .ok { out with warns := ws0 ++ out.warns }

/-! ## `add_epochs` (source lines 653-692) -/

/-- Update the first row whose tags equal `[name]` (`.index` + in-place
assignment of `start_time`/`stop_time`). -/
def updateEpochRow (rows : List EpochRow) (name : String) (s e : Rat) :
    List EpochRow :=
  match rows with
  | [] => []
  | row :: rest =>
    if row.tags = [name] then { row with start_time := s, stop_time := e } :: rest
    else row :: updateEpochRow rest name s e

/-- One iteration of the `for epoch_name in recording.get_epoch_names()`
loop. Note the `end_frame - 1` in the table-creating branch only. -/
def addEpochStep (r : Recording) (nwb : NWBFile) (name : String) : NWBFile :=
  match nwb.epochs with
  | none =>
    { nwb with epochs := some ([⟨r.frame_to_time (r.epoch_start name),
        r.frame_to_time (r.epoch_end name - 1), [name]⟩]) }
  | some rows =>
    if [name] ∈ rows.map EpochRow.tags then
      { nwb with epochs := some (updateEpochRow rows name
          (r.frame_to_time (r.epoch_start name))
          (r.frame_to_time (r.epoch_end name))) }
    else
      { nwb with epochs := some (rows ++
          [⟨r.frame_to_time (r.epoch_start name),
            r.frame_to_time (r.epoch_end name), [name]⟩]) }

/-- `add_epochs(recording, nwbfile, metadata)` (metadata is unused by the
source function; no exception can be raised). -/
def add_epochs (r : Recording) (nwb : NWBFile) : NWBFile :=
  r.epoch_names.foldl (addEpochStep r) nwb

/-! ## Basic lemmas -/

theorem dictGet_dictSet_self {α : Type} (d : Dict α) (k : String) (v : α) :
    dictGet (dictSet d k v) k = some v := by
  induction d with
  | nil => simp [dictSet, dictGet, List.find?]
  | cons p rest ih =>
    by_cases hp : p.1 = k
    · simp [dictSet, hp, dictGet, List.find?]
    · simpa [dictSet, hp, dictGet, List.find?] using ih

theorem dictGet_dictSet_ne {α : Type} (d : Dict α) (k k' : String) (v : α)
    (h : k ≠ k') : dictGet (dictSet d k v) k' = dictGet d k' := by
  induction d with
  | nil =>
    have hk : decide (k = k') = false := decide_eq_false h
    simp [dictSet, dictGet, List.find?, hk]
  | cons p rest ih =>
    by_cases hp : p.1 = k
    · rw [dictSet, if_pos hp]
      have hk : decide (k = k') = false := decide_eq_false h
      have hp' : decide (p.1 = k') = false := decide_eq_false (by rw [hp]; exact h)
      simp [dictGet, List.find?, hk, hp']
    · rw [dictSet, if_neg hp]
      by_cases hp' : p.1 = k'
      · simp [dictGet, List.find?, hp']
      · have hp'' : decide (p.1 = k') = false := decide_eq_false hp'
        simp only [dictGet, List.find?, hp'']
        exact ih

theorem dictHas_iff_dictGet {α : Type} (d : Dict α) (k : String) :
    dictHas d k = (dictGet d k).isSome := by
  induction d with
  | nil => simp [dictHas, dictGet, List.find?]
  | cons p rest ih =>
    by_cases hp : p.1 = k
    · simp [dictHas, dictGet, List.find?, hp]
    · simpa [dictHas, dictGet, List.find?, hp] using ih

theorem digitChar_injOn :
    ∀ a < 10, ∀ b < 10, Nat.digitChar a = Nat.digitChar b → a = b := by decide

theorem map_digitChar_inj :
    ∀ l1 l2 : List Nat, (∀ x ∈ l1, x < 10) → (∀ x ∈ l2, x < 10) →
      l1.map Nat.digitChar = l2.map Nat.digitChar → l1 = l2 := by
  intro l1
  induction l1 with
  | nil => intro l2 _ _ h; cases l2 <;> simp_all
  | cons a l ih =>
    intro l2 h1 h2 h
    cases l2 with
    | nil => simp_all
    | cons b l2' =>
      simp only [List.map_cons, List.cons.injEq] at h
      have ha := h1 a (by simp)
      have hb := h2 b (by simp)
      have : a = b := digitChar_injOn a ha b hb h.1
      subst this
      have := ih l2' (fun x hx => h1 x (by simp [hx]))
        (fun x hx => h2 x (by simp [hx])) h.2
      simp [this]

theorem natDigitsAux_eq_digits :
    ∀ (fuel n : Nat), n ≤ fuel → natDigitsAux fuel n = Nat.digits 10 n := by
  intro fuel
  induction fuel with
  | zero =>
    intro n hn
    have : n = 0 := Nat.le_zero.mp hn
    simp [this, natDigitsAux]
  | succ f ih =>
    intro n hn
    by_cases h0 : n = 0
    · simp [h0, natDigitsAux]
    · rw [natDigitsAux, if_neg h0]
      have hpos : 0 < n := Nat.pos_of_ne_zero h0
      rw [Nat.digits_def' (by norm_num : 1 < 10) hpos]
      rw [ih (n / 10) ?_]
      have : n / 10 < n := Nat.div_lt_self hpos (by norm_num)
      omega

theorem natDigits_eq_digits (n : Nat) : natDigits n = Nat.digits 10 n :=
  natDigitsAux_eq_digits n n (Nat.le_refl n)

theorem pyStr_data_of_ne_zero (n : Nat) (hn : n ≠ 0) :
    (pyStr n).data = (Nat.digits 10 n).reverse.map Nat.digitChar := by
  unfold pyStr
  rw [if_neg hn, natDigits_eq_digits]

theorem digits_bounded {n : Nat} :
    ∀ x ∈ (Nat.digits 10 n).reverse, x < 10 := by
  intro x hx
  simp only [List.mem_reverse] at hx
  exact Nat.digits_lt_base (by norm_num) hx

theorem pyStr_inj_aux {n : Nat} (hn : n ≠ 0)
    (h : (pyStr n).data = (['0'] : List Char)) : False := by
  rw [pyStr_data_of_ne_zero n hn] at h
  have h0 : (List.map Nat.digitChar [0]) = (['0'] : List Char) := by
    simp [Nat.digitChar]
  have : (Nat.digits 10 n).reverse = [0] := by
    refine map_digitChar_inj _ _ digits_bounded ?_ (h.trans h0.symm)
    intro x hx; simp at hx; omega
  have hdig : Nat.digits 10 n = [0] := by
    have := congrArg List.reverse this
    simpa using this
  have hofd := Nat.ofDigits_digits 10 n
  rw [hdig] at hofd
  simp [Nat.ofDigits] at hofd
  exact hn hofd.symm

theorem pyStr_injective : Function.Injective pyStr := by
  intro m n h
  have hd := congrArg String.data h
  by_cases hm : m = 0 <;> by_cases hn : n = 0
  · omega
  · subst hm
    exact absurd (by simpa [pyStr] using hd.symm) (fun hc => pyStr_inj_aux hn hc)
  · subst hn
    exact absurd (by simpa [pyStr] using hd) (fun hc => pyStr_inj_aux hm hc)
  · rw [pyStr_data_of_ne_zero m hm, pyStr_data_of_ne_zero n hn] at hd
    have hrev : (Nat.digits 10 m).reverse = (Nat.digits 10 n).reverse :=
      map_digitChar_inj _ _ digits_bounded digits_bounded hd
    have hdig : Nat.digits 10 m = Nat.digits 10 n := by
      have := congrArg List.reverse hrev
      simpa using this
    have hm' := Nat.ofDigits_digits 10 m
    have hn' := Nat.ofDigits_digits 10 n
    rw [hdig] at hm'
    omega

/-! ## Concrete fixtures for witnesses and counterexamples -/

/-- A small concrete recording: two channels in two groups, a `foo` property
on both channels, integer gain/offset with nonzero offset, memory-mapped
traces. -/
def exRecording : Recording where
  channel_ids := [0, 1]
  props := fun c => if c = 1 then [("foo", .num 5)] else [("foo", .num 3)]
  groups := fun c => c
  locations := fun _ => [some 1, some 2]
  gain := fun _ => 2
  offset := fun _ => 4
  dtypeName := "uint16"
  dtype_itemsize := 2
  traces := fun c => [Int.ofNat c, 10]
  scaledTraces := fun _ => []
  traces_memmap := true
  epoch_names := ["e1"]
  epoch_start := fun _ => 0
  epoch_end := fun _ => 10
  frame_to_time := fun i => (i : Rat)

/-- A fresh NWB file. -/
def emptyNWB : NWBFile := ⟨[], [], none, none⟩

/-! ## C8 -/

/-- C8: for every non-`None` metadata dictionary without an `'Ecephys'` key,
`add_devices` raises an uncaught `KeyError` (not a defensive
`AssertionError`), because `'Device' not in metadata['Ecephys']` evaluates
`metadata['Ecephys']`. The error is produced before any device creation: in
the model no result file is produced at all. -/
theorem C8_add_devices_keyError (r : Recording) (nwb : NWBFile) (md : Metadata)
    (h : md.ecephys = none) :
    add_devices r nwb (some md) = .error (.keyError "Ecephys") := by
  simp [add_devices, effectiveDeviceSlot, h, Bind.bind, Except.bind]

/-- Witness for C8 at a concrete input. -/
theorem C8_witness :
    (⟨none⟩ : Metadata).ecephys = none ∧
    add_devices exRecording emptyNWB (some ⟨none⟩) = .error (.keyError "Ecephys") :=
  ⟨rfl, C8_add_devices_keyError exRecording emptyNWB ⟨none⟩ rfl⟩

/-! ## C10 -/

/-- C10: `add_epochs` computes `stop_time` inconsistently: when
`nwbfile.epochs` is `None` the created row stores
`frame_to_time(end_frame - 1)`, while both the append branch and the
in-place update of an existing tag store `frame_to_time(end_frame)`; so for
the same recording epoch the stored stop time depends on whether the epochs
table already existed. -/
theorem C10_stop_time_inconsistency (r : Recording) (name : String)
    (hnames : r.epoch_names = [name]) (rows : List EpochRow)
    (hrows : [name] ∉ rows.map EpochRow.tags)
    (row : EpochRow) (hrowtags : row.tags = [name])
    (nwb0 nwb1 nwb2 : NWBFile)
    (h0 : nwb0.epochs = none) (h1 : nwb1.epochs = some rows)
    (h2 : nwb2.epochs = some [row])
    (hne : r.frame_to_time (r.epoch_end name - 1) ≠
      r.frame_to_time (r.epoch_end name)) :
    (add_epochs r nwb0).epochs =
      some [⟨r.frame_to_time (r.epoch_start name),
             r.frame_to_time (r.epoch_end name - 1), [name]⟩] ∧
    (add_epochs r nwb1).epochs =
      some (rows ++ [⟨r.frame_to_time (r.epoch_start name),
             r.frame_to_time (r.epoch_end name), [name]⟩]) ∧
    (add_epochs r nwb2).epochs =
      some [⟨r.frame_to_time (r.epoch_start name),
             r.frame_to_time (r.epoch_end name), row.tags⟩] ∧
    ((add_epochs r nwb0).epochs.getD []).map EpochRow.stop_time ≠
      ((add_epochs r nwb2).epochs.getD []).map EpochRow.stop_time := by
  have e0 : add_epochs r nwb0 = addEpochStep r nwb0 name := by
    rw [add_epochs, hnames]; rfl
  have e1 : add_epochs r nwb1 = addEpochStep r nwb1 name := by
    rw [add_epochs, hnames]; rfl
  have e2 : add_epochs r nwb2 = addEpochStep r nwb2 name := by
    rw [add_epochs, hnames]; rfl
  have r0 : (add_epochs r nwb0).epochs =
      some [⟨r.frame_to_time (r.epoch_start name),
             r.frame_to_time (r.epoch_end name - 1), [name]⟩] := by
    rw [e0, addEpochStep, h0]
  have r2 : (add_epochs r nwb2).epochs =
      some [⟨r.frame_to_time (r.epoch_start name),
             r.frame_to_time (r.epoch_end name), row.tags⟩] := by
    rw [e2, addEpochStep, h2]
    simp [hrowtags, updateEpochRow]
  refine ⟨r0, ?_, r2, ?_⟩
  · rw [e1, addEpochStep, h1]
    simp [hrows]
  · rw [r0, r2]
    simp [hne]

/-- Witness for C10 at a concrete input: with `frame_to_time` the identity
on a 10-frame epoch, a fresh table stores stop time 9 while an existing
table stores 10. -/
theorem C10_witness :
    (add_epochs exRecording emptyNWB).epochs =
      some [⟨(0 : Rat), (9 : Rat), ["e1"]⟩] ∧
    (add_epochs exRecording ⟨[], [], none, some [⟨(0 : Rat), (9 : Rat), ["e1"]⟩]⟩).epochs =
      some [⟨(0 : Rat), (10 : Rat), ["e1"]⟩] := by
  have h := C10_stop_time_inconsistency exRecording "e1" rfl []
    (by simp) ⟨(0 : Rat), (9 : Rat), ["e1"]⟩ rfl emptyNWB ⟨[], [], none, some []⟩
    ⟨[], [], none, some [⟨(0 : Rat), (9 : Rat), ["e1"]⟩]⟩ rfl rfl rfl (by decide)
  exact ⟨by simpa using h.1, by simpa using h.2.2.1⟩

/-! ## C2 -/

/-- Fixture for the C2 counterexample: channel 0 lacks property `foo`,
channel 1 carries it with value 5. -/
def rC2 : Recording where
  channel_ids := [0, 1]
  props := fun c => if c = 1 then [("foo", .num 5)] else []
  groups := fun _ => 0
  locations := fun _ => [none, none]
  gain := fun _ => 1
  offset := fun _ => 0
  dtypeName := "int16"
  dtype_itemsize := 2
  traces := fun _ => []
  scaledTraces := fun _ => []
  traces_memmap := false
  epoch_names := []
  epoch_start := fun _ => 0
  epoch_end := fun _ => 0
  frame_to_time := fun i => (i : Rat)

/-- C2 counterexample: with property `foo` missing on channel 0 and present
on channel 1, the collected column is `[5]` — channel 0's position holds no
fill value and the array does not range over all channels, contradicting
the claimed "per-column array over all channels ... with an explicit fill
value in the position of every channel missing that property". -/
theorem C2_counterexample :
    collectPropData rC2 "foo" = [PVal.num 5] ∧
    rC2.channel_ids.length = 2 ∧
    (collectPropData rC2 "foo").length ≠ rC2.channel_ids.length := by
  refine ⟨by decide, by decide, by decide⟩

/-- The fill value the code appends after a previously appended entry:
`''` after a string, `np.nan` otherwise. -/
def fillAfter : PVal → PVal
  | .str _ => .str ""
  | _ => .nan

/-- The channel has the property. -/
def hasProp (r : Recording) (c : Nat) (p : String) : Bool :=
  dictHas (r.props c) p

/-- Modelled from the spec: the amended per-column scan on the channel
suffix after the first present value — each channel contributes its value
when present and otherwise a fill determined by the immediately preceding
array entry. -/
def colSpecGo (r : Recording) (p : String) : PVal → List Nat → List PVal
  | _, [] => []
  | prev, c :: cs =>
    match dictGet (r.props c) p with
    | some v => v :: colSpecGo r p v cs
    | none => fillAfter prev :: colSpecGo r p (fillAfter prev) cs

/-- Modelled from the spec: the amended per-column array over a channel
list — channels before the first one having the property contribute no
entry. -/
def colSpecList (r : Recording) (p : String) (l : List Nat) : List PVal :=
  match l.dropWhile (fun c => ! hasProp r c p) with
  | [] => []
  | c :: cs =>
    match dictGet (r.props c) p with
    | some v => v :: colSpecGo r p v cs
    | none => []

/-- The amended per-column array over the recording's channels. -/
def colSpec (r : Recording) (p : String) : List PVal :=
  colSpecList r p r.channel_ids

theorem foldl_collectStep_append (r : Recording) (p : String) :
    ∀ (l : List Nat) (data : List PVal) (prev : PVal),
      data.getLast? = some prev →
      List.foldl (collectStep r p) data l = data ++ colSpecGo r p prev l := by
  intro l
  induction l with
  | nil => intro data prev _; simp [colSpecGo]
  | cons c cs ih =>
    intro data prev hlast
    rw [List.foldl_cons]
    cases hv : dictGet (r.props c) p with
    | some v =>
      have hstep : collectStep r p data c = data ++ [v] := by
        simp [collectStep, hv]
      rw [hstep, ih (data ++ [v]) v (by simp)]
      simp [colSpecGo, hv]
    | none =>
      have hstep : collectStep r p data c = data ++ [fillAfter prev] := by
        rw [collectStep, hv, hlast]
        cases prev <;> simp [PVal.isStr, fillAfter]
      rw [hstep, ih (data ++ [fillAfter prev]) (fillAfter prev) (by simp)]
      simp [colSpecGo, hv]

theorem collectPropData_eq_colSpecList (r : Recording) (p : String) :
    ∀ l : List Nat, List.foldl (collectStep r p) [] l = colSpecList r p l := by
  intro l
  induction l with
  | nil => rfl
  | cons c cs ih =>
    rw [List.foldl_cons]
    cases hv : dictGet (r.props c) p with
    | some v =>
      have hstep : collectStep r p [] c = [v] := by
        simp [collectStep, hv]
      have hhas : hasProp r c p = true := by
        simp [hasProp, dictHas_iff_dictGet, hv]
      rw [hstep, foldl_collectStep_append r p cs [v] v (by simp)]
      simp [colSpecList, List.dropWhile_cons, hhas, hv]
    | none =>
      have hstep : collectStep r p [] c = [] := by
        simp [collectStep, hv]
      have hhas : hasProp r c p = false := by
        simp [hasProp, dictHas_iff_dictGet, hv]
      rw [hstep, ih]
      simp [colSpecList, List.dropWhile_cons, hhas]

theorem colSpecGo_length (r : Recording) (p : String) :
    ∀ (l : List Nat) (prev : PVal), (colSpecGo r p prev l).length = l.length := by
  intro l
  induction l with
  | nil => intro prev; simp [colSpecGo]
  | cons c cs ih =>
    intro prev
    cases hv : dictGet (r.props c) p <;> simp [colSpecGo, hv, ih]

theorem colSpecList_length (r : Recording) (p : String) (l : List Nat) :
    (colSpecList r p l).length =
      (l.dropWhile (fun c => ! hasProp r c p)).length := by
  induction l with
  | nil => rfl
  | cons c cs ih =>
    by_cases hhas : hasProp r c p
    · obtain ⟨v, hv⟩ : ∃ v, dictGet (r.props c) p = some v := by
        have := dictHas_iff_dictGet (r.props c) p
        rw [hasProp] at hhas
        rw [hhas] at this
        exact Option.isSome_iff_exists.mp this.symm
      simp [colSpecList, List.dropWhile_cons, hhas, hv, colSpecGo_length]
    · have hhas' : hasProp r c p = false := by simpa using hhas
      have : colSpecList r p (c :: cs) = colSpecList r p cs := by
        simp [colSpecList, List.dropWhile_cons, hhas']
      rw [this, ih]
      simp [List.dropWhile_cons, hhas']

/-- `electrodes.colnames` (empty when the table does not exist). -/
def tableColnames (nwb : NWBFile) : List (String × String) :=
  match nwb.electrodes with
  | none => []
  | some t => t.colnames

theorem tableColnames_addElectrodeColumn (nwb : NWBFile) (name desc : String) :
    tableColnames (addElectrodeColumn nwb name desc) =
      tableColnames nwb ++ [(name, desc)] := by
  cases h : nwb.electrodes <;>
    simp [addElectrodeColumn, tableColnames, h]

theorem addColumnsLoop_colnames :
    ∀ (cols : Dict ColData) (nwb : NWBFile),
      tableColnames (addColumnsLoop nwb cols) =
        tableColnames nwb ++
          (cols.filter (fun pr => decide (pr.1 ∉ defaultEFieldNames))).map
            (fun pr => (pr.1, pr.2.description)) := by
  intro cols
  induction cols with
  | nil => intro nwb; simp [addColumnsLoop]
  | cons pr rest ih =>
    intro nwb
    rw [addColumnsLoop, List.foldl_cons]
    by_cases hd : pr.1 ∈ defaultEFieldNames
    · rw [if_pos hd]
      have := ih nwb
      rw [addColumnsLoop] at this
      rw [this]
      simp [List.filter_cons, hd]
    · rw [if_neg hd]
      have := ih (addElectrodeColumn nwb pr.1 pr.2.description)
      rw [addColumnsLoop] at this
      rw [this, tableColnames_addElectrodeColumn]
      simp [List.filter_cons, hd]

theorem checkColumnsData_error_iff (cols : Dict ColData) :
    (∃ e, checkColumnsData cols = .error e) ↔
      ∃ pr ∈ cols, pr.2.dat = none ∧ pr.1 ∉ defaultEFieldNames := by
  induction cols with
  | nil => simp [checkColumnsData]
  | cons pr rest ih =>
    obtain ⟨name, cd⟩ := pr
    by_cases hc : cd.dat = none ∧ name ∉ defaultEFieldNames
    · constructor
      · intro _
        exact ⟨(name, cd), by simp, hc⟩
      · intro _
        exact ⟨.valueError ("no data for electrode column " ++ name),
          by simp [checkColumnsData, hc]⟩
    · have hstep : checkColumnsData ((name, cd) :: rest) = checkColumnsData rest := by
        simp [checkColumnsData, hc]
      rw [hstep, ih]
      constructor
      · rintro ⟨q, hq, h1, h2⟩
        exact ⟨q, by simp [hq], h1, h2⟩
      · rintro ⟨q, hq, h1, h2⟩
        rcases List.mem_cons.mp hq with hq | hq
        · subst hq; exact absurd ⟨h1, h2⟩ hc
        · exact ⟨q, hq, h1, h2⟩

/-- C2 (amended): for every channel property (hence every non-excluded
property in the union), the per-column array is built by scanning channels
in order starting from the first channel that has the property: a channel
with the property contributes its value, a later channel without it
contributes a fill (`''` when the immediately preceding array entry is a
string, `NaN` otherwise); channels missing the property before any present
value contribute no entry, so the array covers only that suffix of the
channels. A new column is appended to the electrode table exactly for the
non-default column names, and a `ValueError` is raised exactly when a
non-default column has no data entry at all. -/
theorem C2_amended :
    (∀ (r : Recording) (p : String), collectPropData r p = colSpec r p) ∧
    (∀ (r : Recording) (p : String),
      (collectPropData r p).length =
        (r.channel_ids.dropWhile (fun c => ! hasProp r c p)).length) ∧
    (∀ (nwb : NWBFile) (cols : Dict ColData),
      tableColnames (addColumnsLoop nwb cols) =
        tableColnames nwb ++
          (cols.filter (fun pr => decide (pr.1 ∉ defaultEFieldNames))).map
            (fun pr => (pr.1, pr.2.description))) ∧
    (∀ cols : Dict ColData,
      (∃ e, checkColumnsData cols = .error e) ↔
        ∃ pr ∈ cols, pr.2.dat = none ∧ pr.1 ∉ defaultEFieldNames) := by
  refine ⟨?_, ?_, ?_, ?_⟩
  · intro r p
    exact collectPropData_eq_colSpecList r p r.channel_ids
  · intro r p
    rw [collectPropData, collectPropData_eq_colSpecList]
    exact colSpecList_length r p r.channel_ids
  · intro nwb cols
    exact addColumnsLoop_colnames cols nwb
  · exact checkColumnsData_error_iff

/-! ## C3 / C4 support -/

theorem add_electrical_series_ok_inv (r : Recording) (nwb : NWBFile)
    (md : Option Metadata) (bmb : Nat) (wS : Bool) (out : ESOut)
    (h : add_electrical_series r nwb md bmb wS = .ok out) :
    ∃ (nwb' : NWBFile) (ws0 : List Warning) (out' : ESOut),
      esSeriesCore r nwb' bmb wS = .ok out' ∧
      out = { out' with warns := ws0 ++ out'.warns } := by
  unfold add_electrical_series at h
  by_cases hb : bmb ≤ 10
  · rw [if_pos hb] at h
    exact Except.noConfusion h
  · rw [if_neg hb] at h
    simp only [Bind.bind, Except.bind, pure, Except.pure] at h
    split at h
    · split at h
      · exact Except.noConfusion h
      · split at h
        · exact Except.noConfusion h
        · rename_i out' hcore
          exact ⟨nwb, [], out', hcore, (Except.ok.inj h).symm⟩
    · split at h
      · exact Except.noConfusion h
      · rename_i trip htrip
        split at h
        · exact Except.noConfusion h
        · split at h
          · exact Except.noConfusion h
          · rename_i out' hcore
            exact ⟨trip.1, trip.2.2, out', hcore, (Except.ok.inj h).symm⟩

/-- Under the preconditions that make the earlier stages run without effect
(buffer large enough, a populated electrodes table covering all channels),
`add_electrical_series` is exactly `esSeriesCore`. -/
theorem add_electrical_series_eq_core (r : Recording) (nwb : NWBFile)
    (md : Option Metadata) (bmb : Nat) (wS : Bool)
    (hb : ¬ bmb ≤ 10) (hrows : nwbHasElectrodeRows nwb = true)
    (tids : List Nat) (htids : tableRegionIds nwb r = .ok tids) :
    add_electrical_series r nwb md bmb wS = esSeriesCore r nwb bmb wS := by
  unfold add_electrical_series
  rw [if_neg hb]
  simp only [Bind.bind, Except.bind, hrows, if_pos, pure, Except.pure, htids]
  cases hcore : esSeriesCore r nwb bmb wS with
  | error e => rfl
  | ok out => simp

/-! ## C4 -/

/-- A file whose electrode table already covers channels 0 and 1. -/
def nwbC4 : NWBFile :=
  ⟨[⟨"Device", "d"⟩],
   [⟨"0", "no description", "unknown", "Device"⟩,
    ⟨"1", "no description", "unknown", "Device"⟩],
   some ⟨[], [⟨0, []⟩, ⟨1, []⟩]⟩, none⟩

/-- C4 counterexample: `exRecording`'s `get_traces` returns a memory-mapped
array (`traces_memmap = true`), yet `add_electrical_series` uses the
per-channel generator-based iterator, because the channel offsets are
nonzero — contradicting "the memory-mapped bulk iterator is used exactly
when `get_traces` returns a memory-mapped array". -/
theorem C4_counterexample :
    exRecording.traces_memmap = true ∧
    (add_electrical_series exRecording nwbC4 none 500 false).map ESOut.ephys_data =
      .ok (EphysData.generatorIter
        [Chunk.raw "int16" [2, 12], Chunk.raw "int16" [3, 12]]) := by
  refine ⟨rfl, ?_⟩
  rw [add_electrical_series_eq_core exRecording nwbC4 none 500 false
    (by norm_num) rfl [0, 1] rfl]
  have hcore : esSeriesCore exRecording nwbC4 500 false =
      .ok ⟨nwbC4, (esConversionKwargs exRecording false).1,
        (esConversionKwargs exRecording false).2,
        esEphysData exRecording 500 false, [Warning.unsignedOffsets]⟩ := by
    unfold esSeriesCore
    rw [if_neg]
    · rw [if_pos]
      exact List.any_eq_true.mpr ⟨(4 : Rat) / 2, by
        norm_num [unsignedCoercion, exRecording], by norm_num⟩
    · rw [Classical.not_not]
      norm_num [unsignedCoercion, exRecording]
  have hed : esEphysData exRecording 500 false =
      EphysData.generatorIter
        [Chunk.raw "int16" [2, 12], Chunk.raw "int16" [3, 12]] := by
    unfold esEphysData
    rw [if_neg]
    · norm_num [unsignedCoercion, exRecording, stripUnsigned]
      decide
    · norm_num [exRecording]
  rw [hcore, Except.map, hed]

/-- C4 (amended): on success the iterator choice depends on memmap-ness AND
on every channel offset being zero: the memory-mapped bulk iterator (with
buffer size `buffer_mb·10^6 / (num_channels·itemsize)` rows) is used exactly
when `get_traces` returns a memory-mapped array and all channel offsets are
zero; the per-channel generator-based chunked iterator is used otherwise. -/
theorem C4_amended (r : Recording) (nwb : NWBFile) (md : Option Metadata)
    (bmb : Nat) (wS : Bool) (out : ESOut)
    (h : add_electrical_series r nwb md bmb wS = .ok out) :
    ((∃ bs, out.ephys_data = .memmapIter bs) ↔
      (r.traces_memmap = true ∧ ∀ ch ∈ r.channel_ids, r.offset ch = 0)) ∧
    (out.ephys_data = .memmapIter
        ((bmb * 1000000) / (r.channel_ids.length * r.dtype_itemsize)) ∨
      out.ephys_data = .generatorIter
        ((r.channel_ids.zip ((unsignedCoercion r).map Rat.num)).map (fun p =>
          if wS then Chunk.scaled (r.scaledTraces p.1)
          else Chunk.raw (stripUnsigned r.dtypeName)
            ((r.traces p.1).map (fun v => v + p.2))))) := by
  obtain ⟨nwb1, ws0, out1, hcore, hout⟩ :=
    add_electrical_series_ok_inv r nwb md bmb wS out h
  have hed : out.ephys_data = esEphysData r bmb wS := by
    unfold esSeriesCore at hcore
    split at hcore
    · exact Except.noConfusion hcore
    · rw [hout, ← Except.ok.inj hcore]
  rw [hed]
  unfold esEphysData
  by_cases hc : r.traces_memmap && (r.channel_ids.map r.offset).all (fun q => q == 0)
  · rw [if_pos hc]
    simp only [Bool.and_eq_true, List.all_eq_true, List.mem_map] at hc
    refine ⟨⟨fun _ => ⟨hc.1, fun ch hch => ?_⟩, fun _ => ⟨_, rfl⟩⟩, Or.inl rfl⟩
    have := hc.2 (r.offset ch) ⟨ch, hch, rfl⟩
    exact eq_of_beq this
  · rw [if_neg hc]
    refine ⟨⟨fun hmm => ?_, fun hrhs => ?_⟩, Or.inr rfl⟩
    · obtain ⟨bs, hbs⟩ := hmm
      exact EphysData.noConfusion hbs
    · exfalso
      apply hc
      simp only [Bool.and_eq_true, List.all_eq_true, List.mem_map]
      refine ⟨hrhs.1, ?_⟩
      rintro q ⟨ch, hch, rfl⟩
      exact beq_iff_eq.mpr (hrhs.2 ch hch)

/-- Witness for C4 (amended) at a concrete input. -/
theorem C4_amended_witness :
    ∃ out, add_electrical_series exRecording nwbC4 none 500 false = .ok out ∧
      ¬ ∃ bs, out.ephys_data = EphysData.memmapIter bs := by
  have hrun : add_electrical_series exRecording nwbC4 none 500 false =
      .ok ⟨nwbC4, (esConversionKwargs exRecording false).1,
        (esConversionKwargs exRecording false).2,
        esEphysData exRecording 500 false, [Warning.unsignedOffsets]⟩ := by
    rw [add_electrical_series_eq_core exRecording nwbC4 none 500 false
      (by norm_num) rfl [0, 1] rfl]
    unfold esSeriesCore
    rw [if_neg]
    · rw [if_pos]
      exact List.any_eq_true.mpr ⟨(4 : Rat) / 2, by
        norm_num [unsignedCoercion, exRecording], by norm_num⟩
    · rw [Classical.not_not]
      norm_num [unsignedCoercion, exRecording]
  refine ⟨_, hrun, ?_⟩
  intro hmm
  have h := (C4_amended exRecording nwbC4 none 500 false _ hrun).1.mp hmm
  have := h.2 0 (by norm_num [exRecording])
  rw [show exRecording.offset 0 = 4 from rfl] at this
  exact absurd this (by norm_num)

/-! ## C3 -/

/-- A recording whose `offset/gain` quotient is not an integer (3/2). -/
def rC3bad : Recording :=
  { exRecording with offset := fun _ => 3 }

/-- C3: `add_electrical_series` raises `NotImplementedError` when some
channel's `offset/gain` is not an integer; when all quotients are integers
and at least one is nonzero it issues a (non-fatal) `unsignedOffsets`
warning, and in the per-channel generator path with `write_scaled=False`
each channel's data has its integer coercion added while the dtype keeps
the signed version (`stripUnsigned`). The hypotheses restrict to inputs
on which the earlier stages pass (buffer size, populated electrode table)
and to nonzero gains (for a zero gain numpy produces inf/nan, outside this
exact-arithmetic model). -/
theorem C3_offset_coercion (r : Recording) (nwb : NWBFile)
    (md : Option Metadata) (bmb : Nat) (wS : Bool)
    (hb : ¬ bmb ≤ 10) (hrows : nwbHasElectrodeRows nwb = true)
    (tids : List Nat) (htids : tableRegionIds nwb r = .ok tids)
    (hg : ∀ ch ∈ r.channel_ids, r.gain ch ≠ 0) :
    ((∃ ch ∈ r.channel_ids, (r.offset ch / r.gain ch).den ≠ 1) →
      add_electrical_series r nwb md bmb wS = .error (.notImplementedError
        "Unable to coerce underlying unsigned data type to signed type, which is currently required for NWB Schema v2.2.5!")) ∧
    ((∀ ch ∈ r.channel_ids, (r.offset ch / r.gain ch).den = 1) →
     (∃ ch ∈ r.channel_ids, r.offset ch / r.gain ch ≠ 0) →
     ∃ out, add_electrical_series r nwb md bmb wS = .ok out ∧
       Warning.unsignedOffsets ∈ out.warns ∧
       (wS = false → out.ephys_data = .generatorIter
         ((r.channel_ids.zip ((unsignedCoercion r).map Rat.num)).map (fun p =>
           Chunk.raw (stripUnsigned r.dtypeName)
             ((r.traces p.1).map (fun v => v + p.2)))))) := by
  rw [add_electrical_series_eq_core r nwb md bmb wS hb hrows tids htids]
  constructor
  · rintro ⟨ch, hch, hden⟩
    unfold esSeriesCore
    rw [if_pos]
    intro hall
    rw [List.all_eq_true] at hall
    have := hall (r.offset ch / r.gain ch)
      (by exact List.mem_map.mpr ⟨ch, hch, rfl⟩)
    exact hden (by simpa using this)
  · intro hall ⟨ch, hch, hnz⟩
    have hallb : (unsignedCoercion r).all (fun q => q.den = 1) = true := by
      rw [List.all_eq_true]
      rintro q hq
      rw [unsignedCoercion] at hq
      obtain ⟨c, hc, rfl⟩ := List.mem_map.mp hq
      simpa using hall c hc
    unfold esSeriesCore
    rw [if_neg (by simp [hallb])]
    refine ⟨_, rfl, ?_, ?_⟩
    · have hany : ((unsignedCoercion r).any fun q => decide (q ≠ 0)) = true :=
        List.any_eq_true.mpr ⟨r.offset ch / r.gain ch,
          List.mem_map.mpr ⟨ch, hch, rfl⟩, by simpa using hnz⟩
      rw [if_pos hany]
      exact List.mem_singleton.mpr rfl
    · intro hwS
      have hoz : ¬ (r.traces_memmap &&
          (r.channel_ids.map r.offset).all (fun q => q == 0)) = true := by
        simp only [Bool.and_eq_true, List.all_eq_true, List.mem_map, not_and]
        intro _ hzero
        have := hzero (r.offset ch) ⟨ch, hch, rfl⟩
        have hoff : r.offset ch = 0 := eq_of_beq this
        apply hnz
        rw [hoff]
        simp
      simp only [esEphysData, if_neg hoz, hwS]
      simp

/-- Witness for C3 at concrete inputs: `rC3bad` has quotient 3/2 and errors;
`exRecording` has quotient 2 on every channel, succeeds with the warning,
and its generator chunks carry the coercion with the signed dtype. -/
theorem C3_witness :
    add_electrical_series rC3bad nwbC4 none 500 false =
      .error (.notImplementedError
        "Unable to coerce underlying unsigned data type to signed type, which is currently required for NWB Schema v2.2.5!") ∧
    (∃ out, add_electrical_series exRecording nwbC4 none 500 false = .ok out ∧
      Warning.unsignedOffsets ∈ out.warns ∧
      (false = false → out.ephys_data = .generatorIter
        ((exRecording.channel_ids.zip ((unsignedCoercion exRecording).map Rat.num)).map
          (fun p => Chunk.raw (stripUnsigned exRecording.dtypeName)
            ((exRecording.traces p.1).map (fun v => v + p.2)))))) := by
  constructor
  · exact (C3_offset_coercion rC3bad nwbC4 none 500 false (by decide) rfl
      [0, 1] rfl (by intro ch _; norm_num [rC3bad, exRecording])).1
      ⟨0, by norm_num [rC3bad, exRecording], by norm_num [rC3bad, exRecording]⟩
  · exact (C3_offset_coercion exRecording nwbC4 none 500 false (by decide) rfl
      [0, 1] rfl (by intro ch _; norm_num [exRecording])).2
      (by intro ch _; norm_num [exRecording])
      ⟨0, by norm_num [exRecording], by norm_num [exRecording]⟩

/-! ## C5 -/

deriving instance DecidableEq for Except

/-- Electrode-group metadata naming device `DeviceX`, absent from the file. -/
def mdC5 : Metadata :=
  ⟨some ⟨none, some [⟨some "g0", none, none, some "DeviceX"⟩], none⟩⟩

/-- A file that already has a (different) device, so the group loop runs. -/
def nwbC5 : NWBFile := ⟨[⟨"DeviceA", "d"⟩], [], none, none⟩

/-- A file with device `Device` and groups `0`, `1` but no group `g9`. -/
def nwbC5b : NWBFile :=
  ⟨[⟨"Device", "d"⟩],
   [⟨"0", "no description", "unknown", "Device"⟩,
    ⟨"1", "no description", "unknown", "Device"⟩], none, none⟩

/-- Electrodes metadata with a `group_name` column naming the absent group
`g9` on every channel. -/
def mdC5b : Metadata :=
  ⟨some ⟨none, none, some [⟨some "group_name", some "gdesc",
    some [.str "g9", .str "g9"]⟩]⟩⟩

/-- C5 (code bug): when electrode-group metadata names a device absent from
the nwbfile, the code does NOT synthesize it with a warning as claimed (and
as its own docstring — "Will auto-generate a linked device if the specified
name does not exist in the nwbfile" — promises): `add_electrode_groups`
builds `dict(Ecephys=dict(Device=dict(name=device_name)))`, a plain dict
where `add_devices` expects a list of dicts, so `add_devices` iterates the
dict's keys and calls `.get` on the string `'name'`, raising
`AttributeError` before any warning is issued or any device created. The
second conjunct shows the electrode-group half of the claim does work: an
electrode whose group name is absent gets the group synthesized with an
`electrodeGroupNotFound` warning (its linked device `Device` being
present). -/
theorem C5_missing_device_crash :
    add_electrode_groups exRecording nwbC5 (some mdC5) =
      .error (.attributeError "'str' object has no attribute 'get'") ∧
    (add_electrodes exRecording nwbC5b (some mdC5b)).map
      (fun t => ((t.2.2).contains (Warning.electrodeGroupNotFound 0),
                 (groupNames t.1).contains "g9")) = .ok (true, true) :=
  ⟨by decide, by decide⟩

/-! ## C9 -/

/-- `x.pop('name')`'s effect on the element dict. -/
def popName (x : ElecColMeta) : ElecColMeta := { x with name := none }

theorem applyMetaColumns_acc (numChannels : Nat) :
    ∀ (elist : List ElecColMeta) (cols : Dict ColData) (acc : List ElecColMeta)
      (cols' : Dict ColData) (acc' : List ElecColMeta),
      applyMetaColumns numChannels cols acc elist = .ok (cols', acc') →
      acc' = acc ++ elist.map popName := by
  intro elist
  induction elist with
  | nil =>
    intro cols acc cols' acc' h
    simp only [applyMetaColumns] at h
    have h2 := congrArg Prod.snd (Except.ok.inj h)
    simpa using h2.symm
  | cons x rest ih =>
    intro cols acc cols' acc' h
    simp only [applyMetaColumns, Bind.bind, Except.bind] at h
    split at h
    · rename_i n hn
      simp only [pure, Except.pure] at h
      split at h
      · split at h
        · have := ih _ _ _ _ h
          simp [this, popName]
        · exact Except.noConfusion h
      · have := ih _ _ _ _ h
        simp [this, popName]
    · exact Except.noConfusion h

/-- The `Ecephys` section a builder works with:
`metadata['Ecephys']` after the `None`/missing-key normalization. -/
def effEcephys (md : Option Metadata) : EcephysMeta :=
  (md.map (fun m => m.ecephys.getD ⟨none, none, none⟩)).getD ⟨none, none, none⟩

theorem add_electrode_groups_meta (r : Recording) (nwb : NWBFile)
    (md0 : Option Metadata) (n2 : NWBFile) (m2 : Option Metadata)
    (w2 : List Warning)
    (h : add_electrode_groups r nwb md0 = .ok (n2, m2, w2)) :
    ∃ gl, m2 = md0.map (fun _ => Metadata.mk (some (EcephysMeta.mk
      (effEcephys md0).device (some gl) (effEcephys md0).electrodes))) := by
  unfold add_electrode_groups at h
  simp only [Bind.bind, Except.bind, pure, Except.pure] at h
  repeat' (first
    | (exact Except.noConfusion h)
    | (split at h))
  all_goals
    exact ⟨_, (congrArg (fun t => t.2.1) (Except.ok.inj h)).symm⟩

theorem add_electrodes_meta (r : Recording) (nwb : NWBFile)
    (md0 : Option Metadata) (n1 : NWBFile) (m1 : Option Metadata)
    (w1 : List Warning)
    (h : add_electrodes r nwb md0 = .ok (n1, m1, w1)) :
    ∃ (md1 : Option Metadata),
      (md1 = md0 ∨ ∃ n' w', add_electrode_groups r nwb md0 = .ok (n', md1, w')) ∧
      m1 = md1.map (fun _ => Metadata.mk (some (EcephysMeta.mk
        (effEcephys md1).device (effEcephys md1).electrodeGroup
        (some (((effEcephys md1).electrodes.getD []).map popName))))) ∧
      ((effEcephys md1).electrodes.getD []).all
        (fun x => x.name.isSome && x.description.isSome && x.dat.isSome) = true := by
  unfold add_electrodes at h
  simp only [Bind.bind, Except.bind, pure, Except.pure] at h
  split at h
  · -- electrode_groups empty: nested add_electrode_groups ran first
    split at h
    · exact Except.noConfusion h
    · rename_i trip htrip
      split at h
      · exact Except.noConfusion h
      · rename_i hwf
        split at h
        · exact Except.noConfusion h
        · rename_i hng
          split at h
          · exact Except.noConfusion h
          · rename_i amc hamc
            split at h
            · exact Except.noConfusion h
            · split at h
              · exact Except.noConfusion h
              · rename_i loopres hloop
                split at h
                · exact Except.noConfusion h
                · rename_i hnotnone
                  refine ⟨trip.2.1, Or.inr ⟨trip.1, trip.2.2, by rw [htrip]⟩,
                    ?_, by exact not_not.mp hwf⟩
                  have hacc := applyMetaColumns_acc r.channel_ids.length _ _ _ _ _ hamc
                  have hm : m1 = _ := (congrArg (fun t => t.2.1) (Except.ok.inj h)).symm
                  rw [hm, hacc]
                  simp [effEcephys]
  · split at h
    · exact Except.noConfusion h
    · rename_i hwf
      split at h
      · exact Except.noConfusion h
      · rename_i hng
        split at h
        · exact Except.noConfusion h
        · rename_i amc hamc
          split at h
          · exact Except.noConfusion h
          · split at h
            · exact Except.noConfusion h
            · rename_i loopres hloop
              split at h
              · exact Except.noConfusion h
              · rename_i hnotnone
                refine ⟨md0, Or.inl rfl, ?_, by exact not_not.mp hwf⟩
                have hacc := applyMetaColumns_acc r.channel_ids.length _ _ _ _ _ hamc
                have hm : m1 = _ := (congrArg (fun t => t.2.1) (Except.ok.inj h)).symm
                rw [hm, hacc]
                simp [effEcephys]

/-- C9: `add_electrodes` and `add_electrode_groups` mutate the caller's
metadata argument in place. `add_electrodes` pops the `name` key from every
element of `metadata['Ecephys']['Electrodes']` (the caller afterwards sees
the name-stripped list, different from what it passed when the list is
nonempty); `add_electrode_groups` inserts the `Ecephys` and (default)
`ElectrodeGroup` entries into a passed dictionary that lacks them, so the
caller's dictionary afterwards differs from the one passed in. -/
theorem C9_metadata_mutated_in_place :
    (∀ (r : Recording) (nwb : NWBFile) (md : Metadata) (e0 : EcephysMeta)
       (x : ElecColMeta) (xs : List ElecColMeta)
       (n1 : NWBFile) (m1 : Option Metadata) (w1 : List Warning),
       md.ecephys = some e0 → e0.electrodes = some (x :: xs) →
       add_electrodes r nwb (some md) = .ok (n1, m1, w1) →
       ∃ e' : EcephysMeta, m1 = some ⟨some e'⟩ ∧
         e'.electrodes = some ((x :: xs).map popName) ∧ m1 ≠ some md) ∧
    (∀ (r : Recording) (nwb : NWBFile) (md : Metadata)
       (n2 : NWBFile) (m2 : Option Metadata) (w2 : List Warning),
       (md.ecephys = none ∨ ∃ e0, md.ecephys = some e0 ∧ e0.electrodeGroup = none) →
       add_electrode_groups r nwb (some md) = .ok (n2, m2, w2) →
       ∃ e' : EcephysMeta, m2 = some ⟨some e'⟩ ∧
         e'.electrodeGroup.isSome = true ∧ m2 ≠ some md) := by
  constructor
  · intro r nwb md e0 x xs n1 m1 w1 hmd he h
    obtain ⟨md1, hchoice, hm1, hwf⟩ := add_electrodes_meta r nwb (some md) n1 m1 w1 h
    have helec : (effEcephys md1).electrodes = some (x :: xs) := by
      rcases hchoice with rfl | ⟨n', w', heg⟩
      · simp [effEcephys, hmd, he]
      · obtain ⟨gl, hgl⟩ := add_electrode_groups_meta r nwb (some md) n' md1 w' heg
        subst hgl
        simp [effEcephys, hmd, he]
    have hsome : md1.isSome = true := by
      rcases hchoice with rfl | ⟨n', w', heg⟩
      · rfl
      · obtain ⟨gl, hgl⟩ := add_electrode_groups_meta r nwb (some md) n' md1 w' heg
        subst hgl; rfl
    obtain ⟨mv, hmv⟩ := Option.isSome_iff_exists.mp hsome
    subst hmv
    refine ⟨⟨(effEcephys (some mv)).device, (effEcephys (some mv)).electrodeGroup,
      some ((x :: xs).map popName)⟩, ?_, rfl, ?_⟩
    · rw [hm1, helec]
      exact rfl
    · intro hc
      rw [hm1] at hc
      have hc2 : Metadata.mk (some ⟨(effEcephys (some mv)).device,
          (effEcephys (some mv)).electrodeGroup,
          some (((effEcephys (some mv)).electrodes.getD []).map popName)⟩) = md :=
        Option.some.inj hc
      have hrec : md.ecephys = some ⟨(effEcephys (some mv)).device,
          (effEcephys (some mv)).electrodeGroup,
          some (((effEcephys (some mv)).electrodes.getD []).map popName)⟩ :=
        congrArg Metadata.ecephys hc2.symm
      rw [hmd] at hrec
      have he0 := Option.some.inj hrec
      have hee : e0.electrodes =
          some (((effEcephys (some mv)).electrodes.getD []).map popName) := by
        rw [he0]
      rw [he, helec] at hee
      simp only [Option.getD_some, List.map_cons, Option.some.injEq,
        List.cons.injEq] at hee
      have hx : x = popName x := hee.1
      rw [helec] at hwf
      simp only [Option.getD_some, List.all_cons, Bool.and_eq_true] at hwf
      have hname : x.name.isSome = true := by
        have h1 := hwf.1
        simp only [Bool.and_eq_true] at h1
        exact h1.1.1
      rw [hx] at hname
      simp [popName] at hname
  · intro r nwb md n2 m2 w2 habs h
    obtain ⟨gl, hgl⟩ := add_electrode_groups_meta r nwb (some md) n2 m2 w2 h
    refine ⟨⟨(effEcephys (some md)).device, some gl,
      (effEcephys (some md)).electrodes⟩, by rw [hgl]; exact rfl, rfl, ?_⟩
    intro hc
    rw [hgl] at hc
    have hc2 : Metadata.mk (some ⟨(effEcephys (some md)).device, some gl,
        (effEcephys (some md)).electrodes⟩) = md := Option.some.inj hc
    have hrec : md.ecephys = some ⟨(effEcephys (some md)).device, some gl,
        (effEcephys (some md)).electrodes⟩ :=
      congrArg Metadata.ecephys hc2.symm
    rcases habs with hnone | ⟨e0, hsome, hegnone⟩
    · rw [hnone] at hrec
      exact Option.noConfusion hrec
    · rw [hsome] at hrec
      have he0 := Option.some.inj hrec
      have : e0.electrodeGroup = some gl := by rw [he0]
      rw [hegnone] at this
      exact Option.noConfusion this

/-- Witness for C9 at concrete inputs: the name-popped `Electrodes` list and
the inserted `ElectrodeGroup` entry make the caller-visible metadata differ
from the dictionaries passed in. -/
theorem C9_witness :
    (∃ out : NWBFile × Option Metadata × List Warning,
      add_electrodes exRecording nwbC5b (some mdC5b) = .ok out ∧
      out.2.1 ≠ some mdC5b) ∧
    (∃ out : NWBFile × Option Metadata × List Warning,
      add_electrode_groups exRecording nwbC5b (some ⟨none⟩) = .ok out ∧
      out.2.1 ≠ some ⟨none⟩) := by
  constructor
  · have hok : (add_electrodes exRecording nwbC5b (some mdC5b)).map
        (fun _ => true) = .ok true := by decide
    rcases hval : add_electrodes exRecording nwbC5b (some mdC5b) with e | out
    · rw [hval] at hok
      exact Except.noConfusion hok
    · refine ⟨out, rfl, ?_⟩
      obtain ⟨e', hm, _, hne⟩ := C9_metadata_mutated_in_place.1 exRecording nwbC5b
        mdC5b ⟨none, none, some [⟨some "group_name", some "gdesc",
          some [.str "g9", .str "g9"]⟩]⟩
        ⟨some "group_name", some "gdesc", some [.str "g9", .str "g9"]⟩ []
        out.1 out.2.1 out.2.2 rfl rfl (by rw [hval])
      exact hne
  · have hok : (add_electrode_groups exRecording nwbC5b (some ⟨none⟩)).map
        (fun _ => true) = .ok true := by decide
    rcases hval : add_electrode_groups exRecording nwbC5b (some ⟨none⟩) with e | out
    · rw [hval] at hok
      exact Except.noConfusion hok
    · refine ⟨out, rfl, ?_⟩
      obtain ⟨e', hm, _, hne⟩ := C9_metadata_mutated_in_place.2 exRecording nwbC5b
        ⟨none⟩ out.1 out.2.1 out.2.2 (Or.inl rfl) (by rw [hval])
      exact hne

/-! ## C7 -/

/-- The rows of the epochs table (empty when the table does not exist). -/
def epochRows (nwb : NWBFile) : List EpochRow := nwb.epochs.getD []

/-- Number of rows whose tags equal `[name]`. -/
def tagCount (rows : List EpochRow) (name : String) : Nat :=
  (rows.filter (fun row => row.tags = [name])).length

/-- Every epoch name occurs (as the full tag list) in at most one row. -/
def EpochUnique (nwb : NWBFile) : Prop :=
  ∀ nm, tagCount (epochRows nwb) nm ≤ 1

theorem tagCount_eq_zero_iff (rows : List EpochRow) (nm : String) :
    tagCount rows nm = 0 ↔ [nm] ∉ rows.map EpochRow.tags := by
  rw [tagCount, List.length_eq_zero]
  constructor
  · intro hnil hmem
    obtain ⟨row, hrow, htags⟩ := List.mem_map.mp hmem
    have : row ∈ rows.filter (fun row => row.tags = [nm]) :=
      List.mem_filter.mpr ⟨hrow, by simp [htags]⟩
    rw [hnil] at this
    exact List.not_mem_nil row this
  · intro hmem
    rw [List.filter_eq_nil]
    intro row hrow
    simp only [decide_eq_true_eq]
    intro htags
    exact hmem (List.mem_map.mpr ⟨row, hrow, htags⟩)

theorem tagCount_pos_iff (rows : List EpochRow) (nm : String) :
    [nm] ∈ rows.map EpochRow.tags ↔ 0 < tagCount rows nm := by
  rw [Nat.pos_iff_ne_zero, Ne, tagCount_eq_zero_iff, not_not]

theorem updateEpochRow_tagCount (name : String) (s e : Rat) (nm : String) :
    ∀ rows : List EpochRow,
      tagCount (updateEpochRow rows name s e) nm = tagCount rows nm := by
  intro rows
  induction rows with
  | nil => rfl
  | cons row rest ih =>
    by_cases hr : row.tags = [name]
    · simp only [updateEpochRow, if_pos hr, tagCount, List.filter_cons]
      by_cases hrm : row.tags = [nm] <;> simp [hr, hrm, tagCount] at ih ⊢ <;>
        (try (split <;> simp))
    · simp only [updateEpochRow, if_neg hr, tagCount, List.filter_cons]
      by_cases hrm : row.tags = [nm] <;> simp [hrm, tagCount] at ih ⊢ <;>
        (try exact ih) <;> (try (split <;> simp [ih]))

theorem updateEpochRow_filter_ne (name : String) (s e : Rat) (nm : String)
    (hne : nm ≠ name) :
    ∀ rows : List EpochRow,
      (updateEpochRow rows name s e).filter (fun row => row.tags = [nm]) =
        rows.filter (fun row => row.tags = [nm]) := by
  intro rows
  induction rows with
  | nil => rfl
  | cons row rest ih =>
    by_cases hr : row.tags = [name]
    · have hrm : ¬ (row.tags = [nm]) := by
        rw [hr]
        simp [hne.symm]
      simp only [updateEpochRow, if_pos hr, List.filter_cons]
      simp [hrm, hr, Ne.symm hne]
    · simp only [updateEpochRow, if_neg hr, List.filter_cons]
      by_cases hrm : row.tags = [nm] <;> simp [hrm, ih]

theorem updateEpochRow_mem_of_ne (name : String) (s e : Rat) :
    ∀ (rows : List EpochRow) (row : EpochRow), row ∈ rows →
      row.tags ≠ [name] → row ∈ updateEpochRow rows name s e := by
  intro rows
  induction rows with
  | nil => intro row h; exact absurd h (List.not_mem_nil row)
  | cons hd rest ih =>
    intro row hmem htags
    rcases List.mem_cons.mp hmem with rfl | hmem
    · rw [updateEpochRow, if_neg htags]
      exact List.mem_cons_self _ _
    · by_cases hr : hd.tags = [name]
      · rw [updateEpochRow, if_pos hr]
        exact List.mem_cons_of_mem _ hmem
      · rw [updateEpochRow, if_neg hr]
        exact List.mem_cons_of_mem _ (ih row hmem htags)

theorem updateEpochRow_values (name : String) (s e : Rat) :
    ∀ rows : List EpochRow, tagCount rows name ≤ 1 →
      ∀ row ∈ updateEpochRow rows name s e, row.tags = [name] →
        row.start_time = s ∧ row.stop_time = e := by
  intro rows
  induction rows with
  | nil => intro _ row h; exact absurd h (List.not_mem_nil row)
  | cons hd rest ih =>
    intro hcount row hmem htags
    by_cases hr : hd.tags = [name]
    · rw [updateEpochRow, if_pos hr] at hmem
      rcases List.mem_cons.mp hmem with rfl | hmem
      · exact ⟨rfl, rfl⟩
      · exfalso
        have hz : tagCount rest name = 0 := by
          have : tagCount (hd :: rest) name = tagCount rest name + 1 := by
            simp [tagCount, List.filter_cons, hr]
          omega
        exact (tagCount_eq_zero_iff rest name).mp hz
          (List.mem_map.mpr ⟨row, hmem, htags⟩)
    · rw [updateEpochRow, if_neg hr] at hmem
      rcases List.mem_cons.mp hmem with rfl | hmem
      · exact absurd htags hr
      · have : tagCount rest name ≤ 1 := by
          have : tagCount (hd :: rest) name = tagCount rest name := by
            simp [tagCount, List.filter_cons, hr]
          omega
        exact ih this row hmem htags

/-- The row created by the `nwbfile.epochs is None` branch (note the
`end_frame - 1`). -/
def epochRowCreate (r : Recording) (name : String) : EpochRow :=
  ⟨r.frame_to_time (r.epoch_start name),
   r.frame_to_time (r.epoch_end name - 1), [name]⟩

/-- The row appended to an existing table (no `- 1`). -/
def epochRowAppend (r : Recording) (name : String) : EpochRow :=
  ⟨r.frame_to_time (r.epoch_start name),
   r.frame_to_time (r.epoch_end name), [name]⟩

theorem addEpochStep_eq_create (r : Recording) (nwb : NWBFile) (name : String)
    (h : nwb.epochs = none) :
    addEpochStep r nwb name = { nwb with epochs := some [epochRowCreate r name] } := by
  unfold addEpochStep
  rw [h]
  rfl

theorem addEpochStep_eq_update (r : Recording) (nwb : NWBFile) (name : String)
    (rows : List EpochRow) (h : nwb.epochs = some rows)
    (hmem : [name] ∈ rows.map EpochRow.tags) :
    addEpochStep r nwb name = { nwb with epochs := some (updateEpochRow rows name (r.frame_to_time (r.epoch_start name)) (r.frame_to_time (r.epoch_end name))) } := by
  unfold addEpochStep
  rw [h]
  simp only [if_pos hmem]

theorem addEpochStep_eq_append (r : Recording) (nwb : NWBFile) (name : String)
    (rows : List EpochRow) (h : nwb.epochs = some rows)
    (hmem : [name] ∉ rows.map EpochRow.tags) :
    addEpochStep r nwb name = { nwb with epochs := some (rows ++ [epochRowAppend r name]) } := by
  unfold addEpochStep
  rw [h]
  simp only [if_neg hmem]
  rfl

theorem addEpochStep_epochs_ne_none (r : Recording) (nwb : NWBFile)
    (name : String) : (addEpochStep r nwb name).epochs ≠ none := by
  cases h : nwb.epochs with
  | none => rw [addEpochStep_eq_create r nwb name h]; simp
  | some rows =>
    by_cases hmem : [name] ∈ rows.map EpochRow.tags
    · rw [addEpochStep_eq_update r nwb name rows h hmem]; simp
    · rw [addEpochStep_eq_append r nwb name rows h hmem]; simp

theorem addEpochStep_count_self (r : Recording) (nwb : NWBFile) (name : String)
    (hu : tagCount (epochRows nwb) name ≤ 1) :
    tagCount (epochRows (addEpochStep r nwb name)) name = 1 := by
  cases h : nwb.epochs with
  | none =>
    rw [addEpochStep_eq_create r nwb name h]
    simp [epochRows, tagCount, List.filter, epochRowCreate]
  | some rows =>
    rw [epochRows, h] at hu
    simp only [Option.getD_some] at hu
    by_cases hmem : [name] ∈ rows.map EpochRow.tags
    · rw [addEpochStep_eq_update r nwb name rows h hmem]
      have h1 := updateEpochRow_tagCount name
        (r.frame_to_time (r.epoch_start name))
        (r.frame_to_time (r.epoch_end name)) name rows
      have h2 := (tagCount_pos_iff rows name).mp hmem
      simp only [epochRows, Option.getD_some]
      omega
    · rw [addEpochStep_eq_append r nwb name rows h hmem]
      have h0 := (tagCount_eq_zero_iff rows name).mpr hmem
      simp only [epochRows, Option.getD_some, tagCount, List.filter_append]
      rw [tagCount] at h0
      simp [List.length_append, h0, List.filter, epochRowAppend]

theorem addEpochStep_filter_other (r : Recording) (nwb : NWBFile)
    (name nm : String) (hne : nm ≠ name) :
    (epochRows (addEpochStep r nwb name)).filter (fun row => row.tags = [nm]) =
      (epochRows nwb).filter (fun row => row.tags = [nm]) := by
  cases h : nwb.epochs with
  | none =>
    rw [addEpochStep_eq_create r nwb name h]
    simp [epochRows, h, List.filter, Ne.symm hne, epochRowCreate]
  | some rows =>
    by_cases hmem : [name] ∈ rows.map EpochRow.tags
    · rw [addEpochStep_eq_update r nwb name rows h hmem]
      simp only [epochRows, h, Option.getD_some]
      exact updateEpochRow_filter_ne name _ _ nm hne rows
    · rw [addEpochStep_eq_append r nwb name rows h hmem]
      simp only [epochRows, h, Option.getD_some, List.filter_append]
      simp [List.filter, Ne.symm hne, epochRowAppend]

theorem addEpochStep_count_other (r : Recording) (nwb : NWBFile)
    (name nm : String) (hne : nm ≠ name) :
    tagCount (epochRows (addEpochStep r nwb name)) nm =
      tagCount (epochRows nwb) nm := by
  rw [tagCount, tagCount, addEpochStep_filter_other r nwb name nm hne]

theorem addEpochStep_values (r : Recording) (nwb : NWBFile) (name : String)
    (hu : tagCount (epochRows nwb) name ≤ 1) :
    ∀ row ∈ epochRows (addEpochStep r nwb name), row.tags = [name] →
      row.start_time = r.frame_to_time (r.epoch_start name) ∧
      (row.stop_time = r.frame_to_time (r.epoch_end name) ∨
       (nwb.epochs = none ∧
        row.stop_time = r.frame_to_time (r.epoch_end name - 1))) := by
  cases h : nwb.epochs with
  | none =>
    rw [addEpochStep_eq_create r nwb name h]
    intro row hrow htags
    simp only [epochRows, Option.getD_some] at hrow
    rcases List.mem_singleton.mp hrow with rfl
    exact ⟨rfl, Or.inr ⟨rfl, rfl⟩⟩
  | some rows =>
    rw [epochRows, h] at hu
    simp only [Option.getD_some] at hu
    intro row hrow htags
    by_cases hmem : [name] ∈ rows.map EpochRow.tags
    · rw [addEpochStep_eq_update r nwb name rows h hmem] at hrow
      simp only [epochRows, Option.getD_some] at hrow
      have := updateEpochRow_values name
        (r.frame_to_time (r.epoch_start name))
        (r.frame_to_time (r.epoch_end name)) rows hu row hrow htags
      exact ⟨this.1, Or.inl this.2⟩
    · rw [addEpochStep_eq_append r nwb name rows h hmem] at hrow
      simp only [epochRows, Option.getD_some] at hrow
      rcases List.mem_append.mp hrow with hrow | hrow
      · exact absurd (List.mem_map.mpr ⟨row, hrow, htags⟩) hmem
      · rcases List.mem_singleton.mp hrow with rfl
        exact ⟨rfl, Or.inl rfl⟩

theorem addEpochStep_keep (r : Recording) (nwb : NWBFile) (name : String) :
    ∀ row ∈ epochRows nwb, row.tags ≠ [name] →
      row ∈ epochRows (addEpochStep r nwb name) := by
  cases h : nwb.epochs with
  | none => intro row hrow; simp [epochRows, h] at hrow
  | some rows =>
    intro row hrow htags
    simp only [epochRows, h, Option.getD_some] at hrow
    by_cases hmem : [name] ∈ rows.map EpochRow.tags
    · rw [addEpochStep_eq_update r nwb name rows h hmem]
      simp only [epochRows, Option.getD_some]
      exact updateEpochRow_mem_of_ne name _ _ rows row hrow htags
    · rw [addEpochStep_eq_append r nwb name rows h hmem]
      simp only [epochRows, Option.getD_some]
      exact List.mem_append_left _ hrow

theorem foldl_addEpochStep_unique (r : Recording) :
    ∀ (names : List String) (nwb : NWBFile), EpochUnique nwb →
      EpochUnique (List.foldl (addEpochStep r) nwb names) := by
  intro names
  induction names with
  | nil => intro nwb hu; exact hu
  | cons name rest ih =>
    intro nwb hu
    rw [List.foldl_cons]
    refine ih _ (fun nm => ?_)
    by_cases hnm : nm = name
    · subst hnm
      rw [addEpochStep_count_self r nwb nm (hu nm)]
    · rw [addEpochStep_count_other r nwb name nm hnm]
      exact hu nm

theorem foldl_addEpochStep_filter (r : Recording) :
    ∀ (names : List String) (nwb : NWBFile) (nm : String), nm ∉ names →
      (epochRows (List.foldl (addEpochStep r) nwb names)).filter
          (fun row => row.tags = [nm]) =
        (epochRows nwb).filter (fun row => row.tags = [nm]) := by
  intro names
  induction names with
  | nil => intro nwb nm _; rfl
  | cons name rest ih =>
    intro nwb nm hnm
    rw [List.foldl_cons,
      ih (addEpochStep r nwb name) nm (fun hc => hnm (List.mem_cons_of_mem _ hc)),
      addEpochStep_filter_other r nwb name nm (fun hc => hnm (hc ▸ List.mem_cons_self _ _))]

theorem foldl_addEpochStep_keep (r : Recording) :
    ∀ (names : List String) (nwb : NWBFile) (row : EpochRow),
      row ∈ epochRows nwb → (∀ nm ∈ names, row.tags ≠ [nm]) →
      row ∈ epochRows (List.foldl (addEpochStep r) nwb names) := by
  intro names
  induction names with
  | nil => intro nwb row hrow _; exact hrow
  | cons name rest ih =>
    intro nwb row hrow hnames
    rw [List.foldl_cons]
    exact ih _ row
      (addEpochStep_keep r nwb name row hrow (hnames name (List.mem_cons_self _ _)))
      (fun nm hnm => hnames nm (List.mem_cons_of_mem _ hnm))

theorem foldl_addEpochStep_main (r : Recording) :
    ∀ (names : List String) (nwb : NWBFile), names.Nodup → EpochUnique nwb →
      ∀ nm ∈ names,
        tagCount (epochRows (List.foldl (addEpochStep r) nwb names)) nm = 1 ∧
        ∀ row ∈ epochRows (List.foldl (addEpochStep r) nwb names),
          row.tags = [nm] →
          row.start_time = r.frame_to_time (r.epoch_start nm) ∧
          (row.stop_time = r.frame_to_time (r.epoch_end nm) ∨
           (nwb.epochs = none ∧
            row.stop_time = r.frame_to_time (r.epoch_end nm - 1))) := by
  intro names
  induction names with
  | nil => intro nwb _ _ nm hnm; exact absurd hnm (List.not_mem_nil nm)
  | cons name rest ih =>
    intro nwb hnd hu nm hnm
    rw [List.foldl_cons]
    have hnd' := List.nodup_cons.mp hnd
    rcases List.mem_cons.mp hnm with rfl | hnm
    · -- nm is the head: established by its step, preserved by the rest
      have hfil := foldl_addEpochStep_filter r rest (addEpochStep r nwb nm) nm hnd'.1
      constructor
      · rw [tagCount, hfil, ← tagCount]
        exact addEpochStep_count_self r nwb nm (hu nm)
      · intro row hrow htags
        have hrow' : row ∈ (epochRows (List.foldl (addEpochStep r)
            (addEpochStep r nwb nm) rest)).filter (fun row => row.tags = [nm]) :=
          List.mem_filter.mpr ⟨hrow, by simp [htags]⟩
        rw [hfil] at hrow'
        exact addEpochStep_values r nwb nm (hu nm) row
          (List.mem_filter.mp hrow').1 htags
    · -- nm is processed later: apply the induction hypothesis after the step
      have hu' : EpochUnique (addEpochStep r nwb name) := by
        intro k
        by_cases hk : k = name
        · subst hk; rw [addEpochStep_count_self r nwb k (hu k)]
        · rw [addEpochStep_count_other r nwb name k hk]; exact hu k
      have := ih (addEpochStep r nwb name) hnd'.2 hu' nm hnm
      refine ⟨this.1, fun row hrow htags => ?_⟩
      have hv := this.2 row hrow htags
      refine ⟨hv.1, ?_⟩
      rcases hv.2 with hstop | ⟨hnone, _⟩
      · exact Or.inl hstop
      · exact absurd hnone (addEpochStep_epochs_ne_none r nwb name)

/-- C7: `add_epochs` upserts epochs keyed by tag. Starting from a table in
which every epoch name tags at most one row (e.g. a fresh file), and with
distinct epoch names: after `add_epochs`, every name still tags at most one
row; every epoch name of the recording tags exactly one row, whose
`start_time` is `frame_to_time(start_frame)` and whose `stop_time` comes
from the epoch info (`frame_to_time(end_frame)`, or
`frame_to_time(end_frame - 1)` in the table-creating branch, cf. C10);
rows whose tags match no epoch name are carried over unchanged, i.e. the
update happens in place. -/
theorem C7_add_epochs_upsert (r : Recording) (nwb : NWBFile)
    (hu : EpochUnique nwb) (hn : r.epoch_names.Nodup) :
    EpochUnique (add_epochs r nwb) ∧
    (∀ name ∈ r.epoch_names,
      tagCount (epochRows (add_epochs r nwb)) name = 1 ∧
      ∀ row ∈ epochRows (add_epochs r nwb), row.tags = [name] →
        row.start_time = r.frame_to_time (r.epoch_start name) ∧
        (row.stop_time = r.frame_to_time (r.epoch_end name) ∨
         (nwb.epochs = none ∧
          row.stop_time = r.frame_to_time (r.epoch_end name - 1)))) ∧
    (∀ row ∈ epochRows nwb, (∀ name ∈ r.epoch_names, row.tags ≠ [name]) →
      row ∈ epochRows (add_epochs r nwb)) :=
  ⟨foldl_addEpochStep_unique r r.epoch_names nwb hu,
   foldl_addEpochStep_main r r.epoch_names nwb hn hu,
   fun row hrow hnames => foldl_addEpochStep_keep r r.epoch_names nwb row hrow hnames⟩

/-- Witness for C7 at a concrete input (fresh file, one epoch). -/
theorem C7_witness :
    EpochUnique (add_epochs exRecording emptyNWB) ∧
    tagCount (epochRows (add_epochs exRecording emptyNWB)) "e1" = 1 := by
  have h := C7_add_epochs_upsert exRecording emptyNWB
    (fun nm => by simp [epochRows, emptyNWB, tagCount, List.filter])
    (by decide)
  exact ⟨h.1, (h.2.1 "e1" (by decide)).1⟩

/-! ## C1 / C6 support: the device loop -/

theorem addDevicesListLoop_eq :
    ∀ (l : List DeviceMeta) (nwb : NWBFile),
      ∃ ds, addDevicesListLoop nwb l = { nwb with devices := nwb.devices ++ ds } := by
  intro l
  induction l with
  | nil =>
    intro nwb
    exact ⟨[], by simp [addDevicesListLoop]⟩
  | cons dev rest ih =>
    intro nwb
    rw [addDevicesListLoop]
    split
    · exact ih nwb
    · obtain ⟨ds, hds⟩ := ih { nwb with devices := nwb.devices ++ [mergeDevice dev] }
      refine ⟨mergeDevice dev :: ds, ?_⟩
      rw [hds]
      simp

theorem addDevicesListLoop_nodup :
    ∀ (l : List DeviceMeta) (nwb : NWBFile),
      (deviceNames nwb).Nodup → (deviceNames (addDevicesListLoop nwb l)).Nodup := by
  intro l
  induction l with
  | nil => intro nwb h; exact h
  | cons dev rest ih =>
    intro nwb h
    rw [addDevicesListLoop]
    split
    · exact ih nwb h
    · rename_i hnot
      refine ih _ ?_
      have heq : deviceNames { nwb with devices := nwb.devices ++ [mergeDevice dev] } =
          deviceNames nwb ++ [devMetaName dev] := by
        simp [deviceNames, mergeDevice, devMetaName]
      rw [heq]
      simp only [List.nodup_append, List.nodup_cons]
      refine ⟨h, by simp, ?_⟩
      intro a ha hb
      simp only [List.mem_singleton] at hb
      subst hb
      exact hnot ha

theorem addDevicesListLoop_mem :
    ∀ (l : List DeviceMeta) (nwb : NWBFile) (dev : DeviceMeta), dev ∈ l →
      devMetaName dev ∈ deviceNames (addDevicesListLoop nwb l) := by
  intro l
  induction l with
  | nil => intro nwb dev h; exact absurd h (List.not_mem_nil dev)
  | cons d0 rest ih =>
    intro nwb dev h
    rw [addDevicesListLoop]
    rcases List.mem_cons.mp h with rfl | h
    · split
      · rename_i hin
        obtain ⟨ds, hds⟩ := addDevicesListLoop_eq rest nwb
        rw [hds]
        simp only [deviceNames, List.map_append, List.mem_append]
        exact Or.inl hin
      · obtain ⟨ds, hds⟩ :=
          addDevicesListLoop_eq rest { nwb with devices := nwb.devices ++ [mergeDevice dev] }
        rw [hds]
        simp [deviceNames, mergeDevice, devMetaName]
    · split
      · exact ih nwb dev h
      · exact ih _ dev h

theorem addDevicesListLoop_skip :
    ∀ (l : List DeviceMeta) (nwb : NWBFile),
      (∀ dev ∈ l, devMetaName dev ∈ deviceNames nwb) →
      addDevicesListLoop nwb l = nwb := by
  intro l
  induction l with
  | nil => intro nwb _; rfl
  | cons dev rest ih =>
    intro nwb h
    rw [addDevicesListLoop, if_pos (h dev (List.mem_cons_self _ _))]
    exact ih nwb (fun d hd => h d (List.mem_cons_of_mem _ hd))

theorem lookupDevice_append_of_mem (nwb : NWBFile) (ds : List Device)
    (name : String) (h : name ∈ deviceNames nwb) :
    lookupDevice { nwb with devices := nwb.devices ++ ds } name =
      lookupDevice nwb name := by
  rw [lookupDevice, lookupDevice]
  simp only
  rw [List.find?_append]
  obtain ⟨d, hd, hdn⟩ := List.mem_map.mp h
  cases hf : nwb.devices.find? (fun d => d.name = name) with
  | none =>
    exfalso
    have := List.find?_eq_none.mp hf d hd
    simp [hdn] at this
  | some v => rfl

theorem addDevicesListLoop_lookup :
    ∀ (l : List DeviceMeta) (nwb : NWBFile),
      (l.map devMetaName).Nodup →
      ∀ dev ∈ l,
        (devMetaName dev ∈ deviceNames nwb →
          lookupDevice (addDevicesListLoop nwb l) (devMetaName dev) =
            lookupDevice nwb (devMetaName dev)) ∧
        (devMetaName dev ∉ deviceNames nwb →
          lookupDevice (addDevicesListLoop nwb l) (devMetaName dev) =
            some (mergeDevice dev)) := by
  intro l
  induction l with
  | nil => intro nwb _ dev h; exact absurd h (List.not_mem_nil dev)
  | cons d0 rest ih =>
    intro nwb hnd dev hmem
    rw [List.map_cons, List.nodup_cons] at hnd
    rcases List.mem_cons.mp hmem with rfl | hmem
    · rw [addDevicesListLoop]
      constructor
      · intro hin
        rw [if_pos hin]
        obtain ⟨ds, hds⟩ := addDevicesListLoop_eq rest nwb
        rw [hds]
        exact lookupDevice_append_of_mem nwb ds (devMetaName dev) hin
      · intro hout
        rw [if_neg hout]
        set nwb1 := { nwb with devices := nwb.devices ++ [mergeDevice dev] } with hnwb1
        obtain ⟨ds, hds⟩ := addDevicesListLoop_eq rest nwb1
        have hin1 : devMetaName dev ∈ deviceNames nwb1 := by
          simp [hnwb1, deviceNames, mergeDevice, devMetaName]
        rw [hds, lookupDevice_append_of_mem nwb1 ds (devMetaName dev) hin1]
        rw [lookupDevice]
        simp only [hnwb1]
        rw [List.find?_append]
        cases hf : nwb.devices.find? (fun d => d.name = devMetaName dev) with
        | none => simp [List.find?, mergeDevice, devMetaName]
        | some v =>
          exfalso
          have hvp := List.find?_some hf
          exact hout (List.mem_map.mpr
            ⟨v, List.mem_of_find?_eq_some hf, by simpa using hvp⟩)
    · rw [addDevicesListLoop]
      split
      · exact ih nwb hnd.2 dev hmem
      · rename_i hd0not
        set nwb1 := { nwb with devices := nwb.devices ++ [mergeDevice d0] } with hnwb1
        have hih := ih nwb1 hnd.2 dev hmem
        have hnames1 : deviceNames nwb1 = deviceNames nwb ++ [devMetaName d0] := by
          simp [hnwb1, deviceNames, mergeDevice, devMetaName]
        have hneq : devMetaName dev ≠ devMetaName d0 := by
          intro hc
          exact hnd.1 (hc ▸ List.mem_map.mpr ⟨dev, hmem, rfl⟩)
        constructor
        · intro hin
          have hin1 : devMetaName dev ∈ deviceNames nwb1 := by
            rw [hnames1]
            exact List.mem_append_left _ hin
          rw [hih.1 hin1, hnwb1]
          exact lookupDevice_append_of_mem nwb [mergeDevice d0] _ hin
        · intro hout
          have hout1 : devMetaName dev ∉ deviceNames nwb1 := by
            rw [hnames1]
            simp only [List.mem_append, List.mem_singleton]
            rintro (hc | hc)
            · exact hout hc
            · exact hneq hc
          exact hih.2 hout1

/-- A successful `lookupDevice` returns a device with the looked-up name. -/
theorem lookupDevice_name {nwb : NWBFile} {dn : String} {dv : Device}
    (h : lookupDevice nwb dn = some dv) : dv.name = dn := by
  have := List.find?_some h
  simpa using this

/-- A name in `deviceNames` is found by `lookupDevice`. -/
theorem lookupDevice_mem {nwb : NWBFile} {dn : String}
    (h : dn ∈ deviceNames nwb) :
    ∃ dv, lookupDevice nwb dn = some dv ∧ dv.name = dn := by
  obtain ⟨d, hd, hdn⟩ := List.mem_map.mp h
  cases hf : nwb.devices.find? (fun d => d.name = dn) with
  | none =>
    exfalso
    have := List.find?_eq_none.mp hf d hd
    simp [hdn] at this
  | some v =>
    refine ⟨v, hf, ?_⟩
    have := List.find?_some hf
    simpa using this

/-- A successful `lookupGroup` returns a group with the looked-up name. -/
theorem lookupGroup_name {nwb : NWBFile} {gn : String} {g : ElectrodeGroup}
    (h : lookupGroup nwb gn = some g) : g.name = gn := by
  have := List.find?_some h
  simpa using this

/-- A group found by `lookupGroup` is one of the file's groups. -/
theorem lookupGroup_mem_of_some {nwb : NWBFile} {gn : String} {g : ElectrodeGroup}
    (h : lookupGroup nwb gn = some g) : g ∈ nwb.electrode_groups :=
  List.mem_of_find?_eq_some h

theorem lookupGroup_append_of_mem (nwb : NWBFile) (gs : List ElectrodeGroup)
    (name : String) (h : name ∈ groupNames nwb) :
    lookupGroup { nwb with electrode_groups := nwb.electrode_groups ++ gs } name =
      lookupGroup nwb name := by
  rw [lookupGroup, lookupGroup]
  simp only
  rw [List.find?_append]
  obtain ⟨g, hg, hgn⟩ := List.mem_map.mp h
  cases hf : nwb.electrode_groups.find? (fun g => g.name = name) with
  | none =>
    exfalso
    have := List.find?_eq_none.mp hf g hg
    simp [hgn] at this
  | some v => rfl

/-- `List.contains` is monotone under extension on the right. -/
theorem contains_append_left (l1 l2 : List String) (a : String)
    (h : l1.contains a = true) : (l1 ++ l2).contains a = true :=
  List.elem_eq_true_of_mem
    (List.mem_append_left l2 (List.mem_of_elem_eq_true h))

/-- Executable duplicate-freedom check on a name list. -/
def namesNodup : List String → Bool
  | [] => true
  | x :: xs => !xs.contains x && namesNodup xs

theorem namesNodup_iff (l : List String) : namesNodup l = true ↔ l.Nodup := by
  induction l with
  | nil => simp [namesNodup]
  | cons x xs ih =>
    simp only [namesNodup, Bool.and_eq_true, Bool.not_eq_true', List.nodup_cons]
    rw [ih]
    constructor
    · rintro ⟨h1, h2⟩
      refine ⟨fun hc => ?_, h2⟩
      exact Bool.noConfusion (h1.symm.trans (List.elem_eq_true_of_mem hc))
    · rintro ⟨h1, h2⟩
      refine ⟨?_, h2⟩
      cases hc : xs.contains x with
      | false => rfl
      | true => exact absurd (List.mem_of_elem_eq_true hc) h1

/-- Membership through `insertSorted`. -/
theorem mem_insertSorted (n a : Nat) :
    ∀ l : List Nat, a ∈ insertSorted n l → a = n ∨ a ∈ l := by
  intro l
  induction l with
  | nil => intro h; simpa [insertSorted] using h
  | cons m ms ih =>
    intro h
    rw [insertSorted] at h
    split at h
    · rcases List.mem_cons.mp h with rfl | h
      · exact Or.inl rfl
      · exact Or.inr h
    · split at h
      · exact Or.inr h
      · rcases List.mem_cons.mp h with rfl | h
        · exact Or.inr (List.mem_cons_self _ _)
        · rcases ih h with h | h
          · exact Or.inl h
          · exact Or.inr (List.mem_cons_of_mem _ h)

/-- `insertSorted` preserves strict sortedness. -/
theorem sorted_insertSorted (n : Nat) :
    ∀ l : List Nat, l.Sorted (· < ·) → (insertSorted n l).Sorted (· < ·) := by
  intro l
  induction l with
  | nil => intro _; simp [insertSorted]
  | cons m ms ih =>
    intro h
    rw [List.sorted_cons] at h
    rw [insertSorted]
    split
    · rename_i hlt
      rw [List.sorted_cons]
      refine ⟨?_, List.sorted_cons.mpr h⟩
      intro b hb
      rcases List.mem_cons.mp hb with rfl | hb
      · exact hlt
      · exact lt_trans hlt (h.1 b hb)
    · split
      · exact List.sorted_cons.mpr h
      · rename_i hge hne
        have hmn : m < n := by omega
        rw [List.sorted_cons]
        refine ⟨?_, ih h.2⟩
        intro b hb
        rcases mem_insertSorted n b ms hb with rfl | hb
        · exact hmn
        · exact h.1 b hb

theorem npUnique_sorted (l : List Nat) : (npUnique l).Sorted (· < ·) := by
  induction l with
  | nil => simp [npUnique]
  | cons x xs ih => exact sorted_insertSorted x _ ih

theorem npUnique_nodup (l : List Nat) : (npUnique l).Nodup :=
  (npUnique_sorted l).nodup

/-- The broken device-synthesis metadata of `add_electrode_groups` makes
`add_devices` iterate the keys of a plain dict and crash. -/
theorem add_devices_missingDevice (r : Recording) (nwb : NWBFile) (dn : String) :
    add_devices r nwb (some (missingDeviceMetadata dn)) =
      .error (.attributeError "'str' object has no attribute 'get'") := rfl

theorem addDevicesListLoop_idem (l : List DeviceMeta) (nwb : NWBFile) :
    addDevicesListLoop (addDevicesListLoop nwb l) l = addDevicesListLoop nwb l :=
  addDevicesListLoop_skip l _ (fun dev hd => addDevicesListLoop_mem l nwb dev hd)

theorem addDevicesLoop_eq {nwb : NWBFile} {slot : DeviceSlot} {nwb' : NWBFile}
    (h : addDevicesLoop nwb slot = .ok nwb') :
    ∃ ds, nwb' = { nwb with devices := nwb.devices ++ ds } := by
  cases slot with
  | dict d =>
    rw [addDevicesLoop] at h
    split at h
    · exact ⟨[], by simpa using (Except.ok.inj h).symm⟩
    · exact Except.noConfusion h
  | list l =>
    obtain ⟨ds, hds⟩ := addDevicesListLoop_eq l nwb
    exact ⟨ds, by rw [← hds]; exact (Except.ok.inj h).symm⟩

theorem addDevicesLoop_idem {nwb : NWBFile} {slot : DeviceSlot} {nwb' : NWBFile}
    (h : addDevicesLoop nwb slot = .ok nwb') :
    addDevicesLoop nwb' slot = .ok nwb' := by
  cases slot with
  | dict d =>
    rw [addDevicesLoop] at h ⊢
    split at h
    all_goals first
      | exact Except.noConfusion h
      | (rename_i hk; rw [if_pos hk])
  | list l =>
    have hv : nwb' = addDevicesListLoop nwb l := (Except.ok.inj h).symm
    rw [addDevicesLoop, hv, addDevicesListLoop_idem]

theorem addDevicesLoop_nodup {nwb : NWBFile} {slot : DeviceSlot} {nwb' : NWBFile}
    (h : addDevicesLoop nwb slot = .ok nwb')
    (hnd : (deviceNames nwb).Nodup) : (deviceNames nwb').Nodup := by
  cases slot with
  | dict d =>
    rw [addDevicesLoop] at h
    split at h
    · rw [← Except.ok.inj h]; exact hnd
    · exact Except.noConfusion h
  | list l =>
    rw [← Except.ok.inj h]
    exact addDevicesListLoop_nodup l nwb hnd

theorem add_devices_ok_inv {r : Recording} {nwb : NWBFile}
    {md : Option Metadata} {nwb' : NWBFile}
    (h : add_devices r nwb md = .ok nwb') :
    ∃ slot, effectiveDeviceSlot md = .ok slot ∧
      addDevicesLoop nwb slot = .ok nwb' := by
  unfold add_devices at h
  simp only [Bind.bind, Except.bind] at h
  split at h
  · exact Except.noConfusion h
  · rename_i slot hslot
    exact ⟨slot, hslot, h⟩

theorem add_devices_eq {r : Recording} {nwb : NWBFile} {md : Option Metadata}
    {nwb' : NWBFile} (h : add_devices r nwb md = .ok nwb') :
    ∃ ds, nwb' = { nwb with devices := nwb.devices ++ ds } := by
  obtain ⟨slot, _, hloop⟩ := add_devices_ok_inv h
  exact addDevicesLoop_eq hloop

theorem add_devices_idem {r : Recording} {nwb : NWBFile} {md : Option Metadata}
    {nwb' : NWBFile} (h : add_devices r nwb md = .ok nwb') :
    add_devices r nwb' md = .ok nwb' := by
  obtain ⟨slot, hslot, hloop⟩ := add_devices_ok_inv h
  unfold add_devices
  simp only [Bind.bind, Except.bind]
  rw [hslot]
  exact addDevicesLoop_idem hloop

theorem add_devices_nodup {r : Recording} {nwb : NWBFile} {md : Option Metadata}
    {nwb' : NWBFile} (h : add_devices r nwb md = .ok nwb')
    (hnd : (deviceNames nwb).Nodup) : (deviceNames nwb').Nodup := by
  obtain ⟨slot, _, hloop⟩ := add_devices_ok_inv h
  exact addDevicesLoop_nodup hloop hnd

/-- With `metadata=None`, `add_devices` guarantees a `Device` entry. -/
theorem add_devices_none_mem {r : Recording} {nwb : NWBFile} {nwb' : NWBFile}
    (h : add_devices r nwb none = .ok nwb') :
    "Device" ∈ deviceNames nwb' := by
  obtain ⟨slot, hslot, hloop⟩ := add_devices_ok_inv h
  have hs : slot = .list [deviceDefaults] := (Except.ok.inj hslot).symm
  subst hs
  rw [addDevicesLoop] at hloop
  rw [← Except.ok.inj hloop]
  exact addDevicesListLoop_mem [deviceDefaults] nwb deviceDefaults
    (List.mem_singleton.mpr rfl)

/-! ### Step equations for the electrode-group loop -/

theorem addGroupsLoop_nil (r : Recording) (d0? : Option GroupDefault)
    (nwb : NWBFile) (ws : List Warning) :
    addGroupsLoop r d0? nwb ws [] = .ok (nwb, ws) := rfl

theorem addGroupsLoop_cons_noDefault (r : Recording) (nwb : NWBFile)
    (ws : List Warning) (grp : GroupMeta) (rest : List GroupMeta) :
    addGroupsLoop r none nwb ws (grp :: rest) = .error .indexError := rfl

theorem addGroupsLoop_cons_present (r : Recording) (d0 : GroupDefault)
    (nwb : NWBFile) (ws : List Warning) (grp : GroupMeta) (rest : List GroupMeta)
    (h : grp.name.getD d0.name ∈ groupNames nwb) :
    addGroupsLoop r (some d0) nwb ws (grp :: rest) =
      addGroupsLoop r (some d0) nwb ws rest := by
  rw [addGroupsLoop.eq_def]
  simp only [Bind.bind, Except.bind, pure, Except.pure]
  rw [if_pos h]

theorem addGroupsLoop_cons_create (r : Recording) (d0 : GroupDefault)
    (nwb : NWBFile) (ws : List Warning) (grp : GroupMeta) (rest : List GroupMeta)
    (dv : Device)
    (hname : grp.name.getD d0.name ∉ groupNames nwb)
    (hdev : grp.device.getD d0.device ∈ deviceNames nwb)
    (hlk : lookupDevice nwb (grp.device.getD d0.device) = some dv) :
    addGroupsLoop r (some d0) nwb ws (grp :: rest) =
      addGroupsLoop r (some d0)
        { nwb with electrode_groups :=
            nwb.electrode_groups ++ [{ mergeGroup d0 grp with device := dv.name }] }
        ws rest := by
  rw [addGroupsLoop.eq_def]
  simp only [Bind.bind, Except.bind, pure, Except.pure]
  rw [if_neg hname, if_pos hdev]
  simp only [hlk]

theorem addGroupsLoop_cons_missing (r : Recording) (d0 : GroupDefault)
    (nwb : NWBFile) (ws : List Warning) (grp : GroupMeta) (rest : List GroupMeta)
    (hname : grp.name.getD d0.name ∉ groupNames nwb)
    (hdev : grp.device.getD d0.device ∉ deviceNames nwb) :
    addGroupsLoop r (some d0) nwb ws (grp :: rest) =
      .error (.attributeError "'str' object has no attribute 'get'") := by
  rw [addGroupsLoop.eq_def]
  simp only [Bind.bind, Except.bind, pure, Except.pure]
  rw [if_neg hname, if_neg hdev]
  simp only [add_devices_missingDevice]

/-- Replacing the merged group's `device` field by the name of the looked-up
device is the identity. -/
theorem mergeGroup_update_device (d0 : GroupDefault) (grp : GroupMeta)
    (dn : String) (h : dn = grp.device.getD d0.device) :
    { mergeGroup d0 grp with device := dn } = mergeGroup d0 grp := by
  subst h; rfl

theorem lookupGroup_eq_none {nwb : NWBFile} {gn : String}
    (h : gn ∉ groupNames nwb) : lookupGroup nwb gn = none := by
  rw [lookupGroup]
  apply List.find?_eq_none.mpr
  intro g hg
  simp only [decide_eq_true_eq]
  intro hc
  exact h (List.mem_map.mpr ⟨g, hg, hc⟩)

/-- A successful group loop only appends groups, keeps the warnings, and every
appended group is linked to a device that already existed. -/
theorem addGroupsLoop_ok_inv (r : Recording) :
    ∀ (l : List GroupMeta) (d0? : Option GroupDefault) (nwb : NWBFile)
      (ws : List Warning) (nwb₂ : NWBFile) (ws₂ : List Warning),
      addGroupsLoop r d0? nwb ws l = .ok (nwb₂, ws₂) →
      ∃ gs, nwb₂ = { nwb with electrode_groups := nwb.electrode_groups ++ gs } ∧
        ws₂ = ws ∧ ∀ g ∈ gs, g.device ∈ deviceNames nwb := by
  intro l
  induction l with
  | nil =>
    intro d0? nwb ws nwb₂ ws₂ h
    rw [addGroupsLoop_nil] at h
    have h' := Except.ok.inj h
    injection h' with h1 h2
    refine ⟨[], ?_, h2.symm, by simp⟩
    rw [← h1]
    simp
  | cons grp rest ih =>
    intro d0? nwb ws nwb₂ ws₂ h
    cases d0? with
    | none =>
      rw [addGroupsLoop_cons_noDefault] at h
      exact Except.noConfusion h
    | some d0 =>
      by_cases hn : grp.name.getD d0.name ∈ groupNames nwb
      · rw [addGroupsLoop_cons_present r d0 nwb ws grp rest hn] at h
        exact ih _ _ _ _ _ h
      · by_cases hd : grp.device.getD d0.device ∈ deviceNames nwb
        · obtain ⟨dv, hlk, hdvn⟩ := lookupDevice_mem hd
          rw [addGroupsLoop_cons_create r d0 nwb ws grp rest dv hn hd hlk] at h
          obtain ⟨gs, hgs, hws, href⟩ := ih _ _ _ _ _ h
          refine ⟨{ mergeGroup d0 grp with device := dv.name } :: gs, ?_, hws, ?_⟩
          · rw [hgs]
            simp
          · intro g hg
            rcases List.mem_cons.mp hg with rfl | hg
            · exact List.mem_map.mpr ⟨dv, List.mem_of_find?_eq_some hlk, rfl⟩
            · exact href g hg
        · rw [addGroupsLoop_cons_missing r d0 nwb ws grp rest hn hd] at h
          exact Except.noConfusion h

/-- After a successful group loop, every processed metadata entry has its
(defaulted) name present in the resulting file. -/
theorem addGroupsLoop_mem (r : Recording) :
    ∀ (l : List GroupMeta) (d0 : GroupDefault) (nwb : NWBFile)
      (ws : List Warning) (nwb₂ : NWBFile) (ws₂ : List Warning),
      addGroupsLoop r (some d0) nwb ws l = .ok (nwb₂, ws₂) →
      ∀ grp ∈ l, grp.name.getD d0.name ∈ groupNames nwb₂ := by
  intro l
  induction l with
  | nil =>
    intro d0 nwb ws nwb₂ ws₂ h grp hmem
    exact absurd hmem (List.not_mem_nil grp)
  | cons grp0 rest ih =>
    intro d0 nwb ws nwb₂ ws₂ h grp hmem
    by_cases hn : grp0.name.getD d0.name ∈ groupNames nwb
    · rw [addGroupsLoop_cons_present r d0 nwb ws grp0 rest hn] at h
      rcases List.mem_cons.mp hmem with rfl | hmem
      · obtain ⟨gs, hgs, -, -⟩ := addGroupsLoop_ok_inv r rest _ _ _ _ _ h
        rw [hgs]
        simp only [groupNames, List.map_append, List.mem_append]
        exact Or.inl hn
      · exact ih _ _ _ _ _ h grp hmem
    · by_cases hd : grp0.device.getD d0.device ∈ deviceNames nwb
      · obtain ⟨dv, hlk, hdvn⟩ := lookupDevice_mem hd
        rw [addGroupsLoop_cons_create r d0 nwb ws grp0 rest dv hn hd hlk] at h
        rcases List.mem_cons.mp hmem with rfl | hmem
        · obtain ⟨gs, hgs, -, -⟩ := addGroupsLoop_ok_inv r rest _ _ _ _ _ h
          rw [hgs]
          simp [groupNames, mergeGroup]
        · exact ih _ _ _ _ _ h grp hmem
      · rw [addGroupsLoop_cons_missing r d0 nwb ws grp0 rest hn hd] at h
        exact Except.noConfusion h

/-- A successful group loop never creates a duplicate group name. -/
theorem addGroupsLoop_nodup (r : Recording) :
    ∀ (l : List GroupMeta) (d0? : Option GroupDefault) (nwb : NWBFile)
      (ws : List Warning) (nwb₂ : NWBFile) (ws₂ : List Warning),
      addGroupsLoop r d0? nwb ws l = .ok (nwb₂, ws₂) →
      (groupNames nwb).Nodup → (groupNames nwb₂).Nodup := by
  intro l
  induction l with
  | nil =>
    intro d0? nwb ws nwb₂ ws₂ h hnd
    rw [addGroupsLoop_nil] at h
    have h' := Except.ok.inj h
    injection h' with h1 h2
    rw [← h1]
    exact hnd
  | cons grp rest ih =>
    intro d0? nwb ws nwb₂ ws₂ h hnd
    cases d0? with
    | none =>
      rw [addGroupsLoop_cons_noDefault] at h
      exact Except.noConfusion h
    | some d0 =>
      by_cases hn : grp.name.getD d0.name ∈ groupNames nwb
      · rw [addGroupsLoop_cons_present r d0 nwb ws grp rest hn] at h
        exact ih _ _ _ _ _ h hnd
      · by_cases hd : grp.device.getD d0.device ∈ deviceNames nwb
        · obtain ⟨dv, hlk, hdvn⟩ := lookupDevice_mem hd
          rw [addGroupsLoop_cons_create r d0 nwb ws grp rest dv hn hd hlk] at h
          refine ih _ _ _ _ _ h ?_
          have heq : groupNames { nwb with electrode_groups :=
              nwb.electrode_groups ++
                [{ mergeGroup d0 grp with device := dv.name }] } =
              groupNames nwb ++ [grp.name.getD d0.name] := by
            simp [groupNames, mergeGroup]
          rw [heq]
          simp only [List.nodup_append, List.nodup_cons]
          refine ⟨hnd, by simp, ?_⟩
          intro a ha hb
          simp only [List.mem_singleton] at hb
          subst hb
          exact hn ha
        · rw [addGroupsLoop_cons_missing r d0 nwb ws grp rest hn hd] at h
          exact Except.noConfusion h

/-- The group loop is a no-op when every (defaulted) metadata name is already
present. -/
theorem addGroupsLoop_skip (r : Recording) (d0 : GroupDefault) :
    ∀ (l : List GroupMeta) (nwb : NWBFile) (ws : List Warning),
      (∀ grp ∈ l, grp.name.getD d0.name ∈ groupNames nwb) →
      addGroupsLoop r (some d0) nwb ws l = .ok (nwb, ws) := by
  intro l
  induction l with
  | nil => intro nwb ws _; exact addGroupsLoop_nil r (some d0) nwb ws
  | cons grp rest ih =>
    intro nwb ws h
    rw [addGroupsLoop_cons_present r d0 nwb ws grp rest
      (h grp (List.mem_cons_self _ _))]
    exact ih nwb ws (fun g hg => h g (List.mem_cons_of_mem _ hg))

/-- Per-entry upsert characterization of the group loop: a present name keeps
its original group; an absent name ends up bound to the metadata entry merged
over `defaults[0]`. -/
theorem addGroupsLoop_lookup (r : Recording) :
    ∀ (l : List GroupMeta) (d0 : GroupDefault) (nwb : NWBFile)
      (ws : List Warning) (nwb₂ : NWBFile) (ws₂ : List Warning),
      (l.map (fun g => g.name.getD d0.name)).Nodup →
      addGroupsLoop r (some d0) nwb ws l = .ok (nwb₂, ws₂) →
      ∀ grp ∈ l,
        (grp.name.getD d0.name ∈ groupNames nwb →
          lookupGroup nwb₂ (grp.name.getD d0.name) =
            lookupGroup nwb (grp.name.getD d0.name)) ∧
        (grp.name.getD d0.name ∉ groupNames nwb →
          lookupGroup nwb₂ (grp.name.getD d0.name) = some (mergeGroup d0 grp)) := by
  intro l
  induction l with
  | nil =>
    intro d0 nwb ws nwb₂ ws₂ hnd h grp hmem
    exact absurd hmem (List.not_mem_nil grp)
  | cons grp0 rest ih =>
    intro d0 nwb ws nwb₂ ws₂ hnd h grp hmem
    rw [List.map_cons, List.nodup_cons] at hnd
    rcases List.mem_cons.mp hmem with rfl | hmem
    · by_cases hn : grp.name.getD d0.name ∈ groupNames nwb
      · refine ⟨fun _ => ?_, fun hout => absurd hn hout⟩
        rw [addGroupsLoop_cons_present r d0 nwb ws grp rest hn] at h
        obtain ⟨gs, hgs, -, -⟩ := addGroupsLoop_ok_inv r rest _ _ _ _ _ h
        rw [hgs]
        exact lookupGroup_append_of_mem nwb gs _ hn
      · refine ⟨fun hin => absurd hin hn, fun _ => ?_⟩
        by_cases hd : grp.device.getD d0.device ∈ deviceNames nwb
        · obtain ⟨dv, hlk, hdvn⟩ := lookupDevice_mem hd
          rw [addGroupsLoop_cons_create r d0 nwb ws grp rest dv hn hd hlk,
            mergeGroup_update_device d0 grp dv.name hdvn] at h
          obtain ⟨gs, hgs, -, -⟩ := addGroupsLoop_ok_inv r rest _ _ _ _ _ h
          set nwb1 := { nwb with electrode_groups := nwb.electrode_groups ++
            [mergeGroup d0 grp] } with hnwb1
          have hin1 : grp.name.getD d0.name ∈ groupNames nwb1 := by
            simp [hnwb1, groupNames, mergeGroup]
          rw [hgs, lookupGroup_append_of_mem nwb1 gs _ hin1]
          rw [lookupGroup]
          simp only [hnwb1]
          rw [List.find?_append, List.find?_eq_none.mpr ?notmem]
          case notmem =>
            intro g hg
            simp only [decide_eq_true_eq]
            intro hc
            exact hn (List.mem_map.mpr ⟨g, hg, hc⟩)
          simp [mergeGroup, List.find?]
        · rw [addGroupsLoop_cons_missing r d0 nwb ws grp rest hn hd] at h
          exact Except.noConfusion h
    · by_cases hn : grp0.name.getD d0.name ∈ groupNames nwb
      · rw [addGroupsLoop_cons_present r d0 nwb ws grp0 rest hn] at h
        exact ih _ _ _ _ _ hnd.2 h grp hmem
      · by_cases hd : grp0.device.getD d0.device ∈ deviceNames nwb
        · obtain ⟨dv, hlk, hdvn⟩ := lookupDevice_mem hd
          rw [addGroupsLoop_cons_create r d0 nwb ws grp0 rest dv hn hd hlk] at h
          set nwb1 := { nwb with electrode_groups := nwb.electrode_groups ++
            [{ mergeGroup d0 grp0 with device := dv.name }] } with hnwb1
          have hih := ih _ _ _ _ _ hnd.2 h grp hmem
          have hnames1 : groupNames nwb1 =
              groupNames nwb ++ [grp0.name.getD d0.name] := by
            simp [hnwb1, groupNames, mergeGroup]
          have hneq : grp.name.getD d0.name ≠ grp0.name.getD d0.name := by
            intro hc
            exact hnd.1 (hc ▸ List.mem_map.mpr ⟨grp, hmem, rfl⟩)
          constructor
          · intro hin
            have hin1 : grp.name.getD d0.name ∈ groupNames nwb1 := by
              rw [hnames1]
              exact List.mem_append_left _ hin
            rw [hih.1 hin1, hnwb1]
            exact lookupGroup_append_of_mem nwb _ _ hin
          · intro hout
            have hout1 : grp.name.getD d0.name ∉ groupNames nwb1 := by
              rw [hnames1]
              simp only [List.mem_append, List.mem_singleton]
              rintro (hc | hc)
              · exact hout hc
              · exact hneq hc
            exact hih.2 hout1
        · rw [addGroupsLoop_cons_missing r d0 nwb ws grp0 rest hn hd] at h
          exact Except.noConfusion h

/-- Step equation for a successful `addGroupsFallback`. -/
theorem addGroupsFallback_eq (r : Recording) (d : Device) (d0 : GroupDefault)
    (nwb : NWBFile) (ws : List Warning) (hd : nwb.devices.head? = some d) :
    addGroupsFallback r (some d0) nwb ws =
      .ok ({ nwb with electrode_groups := nwb.electrode_groups ++
        (uniqueGroupIds r).map (fun gid =>
          ({ name := pyStr gid, description := d0.description,
             location := d0.location, device := d.name } : ElectrodeGroup)) },
        if nwb.devices.length > 1 then ws ++ [Warning.moreThanOneDevice d.name]
        else ws) := by
  unfold addGroupsFallback
  simp only [Bind.bind, Except.bind, pure, Except.pure, hd]

theorem addGroupsFallback_noDevice (r : Recording) (d0? : Option GroupDefault)
    (nwb : NWBFile) (ws : List Warning) (hd : nwb.devices.head? = none) :
    addGroupsFallback r d0? nwb ws = .error .indexError := by
  unfold addGroupsFallback
  simp only [Bind.bind, Except.bind, pure, Except.pure, hd]

theorem addGroupsFallback_noDefault (r : Recording) (d : Device)
    (nwb : NWBFile) (ws : List Warning) (hd : nwb.devices.head? = some d) :
    addGroupsFallback r none nwb ws = .error .indexError := by
  unfold addGroupsFallback
  simp only [Bind.bind, Except.bind, pure, Except.pure, hd]

theorem addGroupsFallback_ok_inv {r : Recording} {d0? : Option GroupDefault}
    {nwb : NWBFile} {ws : List Warning} {out : NWBFile × List Warning}
    (h : addGroupsFallback r d0? nwb ws = .ok out) :
    ∃ d d0, nwb.devices.head? = some d ∧ d0? = some d0 ∧
      out.1 = { nwb with electrode_groups := nwb.electrode_groups ++
        (uniqueGroupIds r).map (fun gid =>
          ({ name := pyStr gid, description := d0.description,
             location := d0.location, device := d.name } : ElectrodeGroup)) } := by
  cases hd : nwb.devices.head? with
  | none =>
    rw [addGroupsFallback_noDevice r d0? nwb ws hd] at h
    exact Except.noConfusion h
  | some d =>
    cases d0? with
    | none =>
      rw [addGroupsFallback_noDefault r d nwb ws hd] at h
      exact Except.noConfusion h
    | some d0 =>
      rw [addGroupsFallback_eq r d d0 nwb ws hd] at h
      exact ⟨d, d0, rfl, rfl, (congrArg Prod.fst (Except.ok.inj h)).symm⟩


/-- Full success-shape inversion for `add_electrode_groups`. -/
theorem add_electrode_groups_ok_inv (r : Recording) (nwb : NWBFile)
    (md : Option Metadata) (nwb' : NWBFile) (md' : Option Metadata)
    (ws : List Warning)
    (h : add_electrode_groups r nwb md = .ok (nwb', md', ws)) :
    ∃ nwb₁ defaults nwb₂ ws₁,
      ((nwb.devices.isEmpty = true ∧ add_devices r nwb none = .ok nwb₁) ∨
        (nwb.devices.isEmpty = false ∧ nwb₁ = nwb)) ∧
      buildGroupDefaults nwb₁ (uniqueGroupIds r) = .ok defaults ∧
      addGroupsLoop r defaults.head? nwb₁ []
        ((effEcephys md).electrodeGroup.getD (defaults.map fun d =>
          (⟨some d.name, some d.description, some d.location, some d.device⟩ :
            GroupMeta))) = .ok (nwb₂, ws₁) ∧
      ((nwb₂.electrode_groups.isEmpty = true ∧
          addGroupsFallback r defaults.head? nwb₂ ws₁ = .ok (nwb', ws)) ∨
        (nwb₂.electrode_groups.isEmpty = false ∧ nwb' = nwb₂ ∧ ws = ws₁)) ∧
      md' = md.map (fun m => { m with ecephys := some { effEcephys md with
        electrodeGroup := some ((effEcephys md).electrodeGroup.getD
          (defaults.map fun d =>
            (⟨some d.name, some d.description, some d.location, some d.device⟩ :
              GroupMeta))) } }) := by
  unfold add_electrode_groups at h
  simp only [Bind.bind, Except.bind, pure, Except.pure] at h
  split at h
  · rename_i hde
    split at h
    · exact Except.noConfusion h
    · rename_i nwb₁ hdev
      split at h
      · exact Except.noConfusion h
      · rename_i defaults hdef
        split at h
        · exact Except.noConfusion h
        · rename_i lpair hloop
          split at h
          · rename_i hempty
            split at h
            · exact Except.noConfusion h
            · rename_i fpair hfall
              refine ⟨nwb₁, defaults, lpair.1, lpair.2,
                Or.inl ⟨hde, hdev⟩, hdef, hloop, ?_, ?_⟩
              · refine Or.inl ⟨hempty, ?_⟩
                rw [hfall]
                have h1 : fpair.1 = nwb' := congrArg (fun t => t.1) (Except.ok.inj h)
                have h3 : fpair.2 = ws := congrArg (fun t => t.2.2) (Except.ok.inj h)
                rw [← h1, ← h3]
              · exact (congrArg (fun t => t.2.1) (Except.ok.inj h)).symm
          · rename_i hempty
            refine ⟨nwb₁, defaults, lpair.1, lpair.2,
              Or.inl ⟨hde, hdev⟩, hdef, hloop, ?_, ?_⟩
            · refine Or.inr ⟨by simpa using hempty, ?_, ?_⟩
              · exact (congrArg (fun t => t.1) (Except.ok.inj h)).symm
              · exact (congrArg (fun t => t.2.2) (Except.ok.inj h)).symm
            · exact (congrArg (fun t => t.2.1) (Except.ok.inj h)).symm
  · rename_i hde
    split at h
    · exact Except.noConfusion h
    · rename_i defaults hdef
      split at h
      · exact Except.noConfusion h
      · rename_i lpair hloop
        split at h
        · rename_i hempty
          split at h
          · exact Except.noConfusion h
          · rename_i fpair hfall
            refine ⟨nwb, defaults, lpair.1, lpair.2,
              Or.inr ⟨by simpa using hde, rfl⟩, hdef, hloop, ?_, ?_⟩
            · refine Or.inl ⟨hempty, ?_⟩
              rw [hfall]
              have h1 : fpair.1 = nwb' := congrArg (fun t => t.1) (Except.ok.inj h)
              have h3 : fpair.2 = ws := congrArg (fun t => t.2.2) (Except.ok.inj h)
              rw [← h1, ← h3]
            · exact (congrArg (fun t => t.2.1) (Except.ok.inj h)).symm
        · rename_i hempty
          refine ⟨nwb, defaults, lpair.1, lpair.2,
            Or.inr ⟨by simpa using hde, rfl⟩, hdef, hloop, ?_, ?_⟩
          · refine Or.inr ⟨by simpa using hempty, ?_, ?_⟩
            · exact (congrArg (fun t => t.1) (Except.ok.inj h)).symm
            · exact (congrArg (fun t => t.2.2) (Except.ok.inj h)).symm
          · exact (congrArg (fun t => t.2.1) (Except.ok.inj h)).symm

/-- `buildGroupDefaults` only consults the first device. -/
theorem buildGroupDefaults_congr {n1 n2 : NWBFile} (g : List Nat)
    (h : n1.devices.head? = n2.devices.head?) :
    buildGroupDefaults n1 g = buildGroupDefaults n2 g := by
  unfold buildGroupDefaults
  rw [h]

/-- Forward computation of a successful `add_electrode_groups` run that does
not hit the initial `add_devices` call nor the fallback block. -/
theorem add_electrode_groups_build (r : Recording) (nwb : NWBFile)
    (md : Option Metadata) (defaults : List GroupDefault) (nwb₂ : NWBFile)
    (ws₁ : List Warning)
    (h0 : nwb.devices.isEmpty = false)
    (hd : buildGroupDefaults nwb (uniqueGroupIds r) = .ok defaults)
    (hl : addGroupsLoop r defaults.head? nwb []
        ((effEcephys md).electrodeGroup.getD (defaults.map fun d =>
          (⟨some d.name, some d.description, some d.location, some d.device⟩ :
            GroupMeta))) = .ok (nwb₂, ws₁))
    (hne : nwb₂.electrode_groups.isEmpty = false) :
    add_electrode_groups r nwb md = .ok (nwb₂,
      md.map (fun m => { m with ecephys := some { effEcephys md with
        electrodeGroup := some ((effEcephys md).electrodeGroup.getD
          (defaults.map fun d =>
            (⟨some d.name, some d.description, some d.location, some d.device⟩ :
              GroupMeta))) } }), ws₁) := by
  unfold add_electrode_groups
  simp only [Bind.bind, Except.bind, pure, Except.pure]
  rw [h0, if_neg Bool.false_ne_true, hd]
  simp only [Except.bind]
  rw [← effEcephys.eq_def, hl]
  simp only [Except.bind]
  rw [hne, if_neg Bool.false_ne_true]

/-- A second invocation of `add_electrode_groups` with the caller-observed
metadata of a successful first invocation returns the same file and metadata
and performs no work (no warnings). -/
theorem add_electrode_groups_idem (r : Recording) (nwb : NWBFile)
    (md : Option Metadata) (nwb' : NWBFile) (md' : Option Metadata)
    (ws : List Warning)
    (h : add_electrode_groups r nwb md = .ok (nwb', md', ws)) :
    add_electrode_groups r nwb' md' = .ok (nwb', md', []) := by
  obtain ⟨nwb₁, defaults, nwb₂, ws₁, hstep1, hdef, hloop, hstep4, hmd⟩ :=
    add_electrode_groups_ok_inv r nwb md nwb' md' ws h
  obtain ⟨gs1, hn2, -, -⟩ := addGroupsLoop_ok_inv r _ _ _ _ _ _ hloop
  have hdevne : nwb₁.devices ≠ [] := by
    rcases hstep1 with ⟨-, hadd⟩ | ⟨hne, rfl⟩
    · intro hc
      have hm := add_devices_none_mem hadd
      rw [deviceNames, hc] at hm
      exact absurd hm (List.not_mem_nil _)
    · intro hc
      rw [hc] at hne
      simp at hne
  have hdeq : nwb'.devices = nwb₁.devices := by
    rcases hstep4 with ⟨hempty, hfall⟩ | ⟨hne2, rfl, rfl⟩
    · obtain ⟨dh, d0c, hh, hd0c, hout⟩ := addGroupsFallback_ok_inv hfall
      have h1 : nwb' = _ := hout
      rw [h1, hn2]
    · rw [hn2]
  have h0' : nwb'.devices.isEmpty = false :=
    List.isEmpty_eq_false.mpr (by rw [hdeq]; exact hdevne)
  have hdef' : buildGroupDefaults nwb' (uniqueGroupIds r) = .ok defaults := by
    rw [buildGroupDefaults_congr (uniqueGroupIds r)
      (show nwb'.devices.head? = nwb₁.devices.head? by rw [hdeq])]
    exact hdef
  have hGmono : ∀ x, x ∈ groupNames nwb₂ → x ∈ groupNames nwb' := by
    rcases hstep4 with ⟨hempty, hfall⟩ | ⟨hne2, rfl, rfl⟩
    · obtain ⟨dh, d0c, hh, hd0c, hout⟩ := addGroupsFallback_ok_inv hfall
      have h1 : nwb' = _ := hout
      intro x hx
      rw [h1]
      simp only [groupNames, List.map_append, List.mem_append]
      exact Or.inl hx
    · exact fun x hx => hx
  have hgne : nwb'.electrode_groups ≠ [] := by
    rcases hstep4 with ⟨hempty, hfall⟩ | ⟨hne2, rfl, rfl⟩
    · obtain ⟨dh, d0c, hh, hd0c, hout⟩ := addGroupsFallback_ok_inv hfall
      have h1 : nwb' = _ := hout
      have hgids : uniqueGroupIds r ≠ [] := by
        intro hc
        have hspec : buildGroupDefaults nwb₁ [] = .ok [] := rfl
        rw [hc, hspec] at hdef
        have hdefs : defaults = [] := (Except.ok.inj hdef).symm
        rw [hdefs] at hd0c
        exact Option.noConfusion hd0c
      have hg2 : nwb₂.electrode_groups = [] := List.isEmpty_iff.mp hempty
      rw [h1]
      show nwb₂.electrode_groups ++ _ ≠ []
      rw [hg2, List.nil_append]
      intro hc
      exact hgids (List.map_eq_nil.mp hc)
    · exact List.isEmpty_eq_false.mp hne2
  have hloop' : addGroupsLoop r defaults.head? nwb' []
      ((effEcephys md).electrodeGroup.getD (defaults.map fun d =>
        (⟨some d.name, some d.description, some d.location, some d.device⟩ :
          GroupMeta))) = .ok (nwb', []) := by
    cases hh : defaults.head? with
    | none =>
      cases hglc : (effEcephys md).electrodeGroup.getD (defaults.map fun d =>
          (⟨some d.name, some d.description, some d.location, some d.device⟩ :
            GroupMeta)) with
      | nil => exact addGroupsLoop_nil r none nwb' []
      | cons g0 grest =>
        rw [hh, hglc, addGroupsLoop_cons_noDefault] at hloop
        exact Except.noConfusion hloop
    | some d0 =>
      refine addGroupsLoop_skip r d0 _ nwb' [] ?_
      intro grp hgrp
      refine hGmono _ ?_
      refine addGroupsLoop_mem r _ d0 nwb₁ [] nwb₂ ws₁ ?_ grp hgrp
      rw [← hh]
      exact hloop
  subst hmd
  cases md with
  | none =>
    exact add_electrode_groups_build r nwb' _ defaults nwb' [] h0' hdef'
      hloop' (List.isEmpty_eq_false.mpr hgne)
  | some m =>
    exact add_electrode_groups_build r nwb' _ defaults nwb' [] h0' hdef'
      hloop' (List.isEmpty_eq_false.mpr hgne)

/-- `nwb` with its device and electrode-group lists extended on the right. -/
def extendNwb (nwb : NWBFile) (ds : List Device) (gs : List ElectrodeGroup) :
    NWBFile :=
  { nwb with
      devices := nwb.devices ++ ds,
      electrode_groups := nwb.electrode_groups ++ gs }

/-- Success-path shape of `add_electrode_groups`: devices and electrode
groups are only ever appended, name uniqueness is preserved on both, and every
appended group is linked to a device present in the resulting file. -/
theorem add_electrode_groups_shape (r : Recording) (nwb : NWBFile)
    (md : Option Metadata) (nwb' : NWBFile) (md' : Option Metadata)
    (ws : List Warning)
    (h : add_electrode_groups r nwb md = .ok (nwb', md', ws)) :
    ∃ ds gs, nwb' = extendNwb nwb ds gs ∧
      ((groupNames nwb).Nodup → (groupNames nwb').Nodup) ∧
      ((deviceNames nwb).Nodup → (deviceNames nwb').Nodup) ∧
      (∀ g ∈ gs, g.device ∈ deviceNames nwb') := by
  obtain ⟨nwb₁, defaults, nwb₂, ws₁, hstep1, hdef, hloop, hstep4, hmd⟩ :=
    add_electrode_groups_ok_inv r nwb md nwb' md' ws h
  obtain ⟨gs1, hn2, -, href1⟩ := addGroupsLoop_ok_inv r _ _ _ _ _ _ hloop
  have hdev1 : ∃ ds, nwb₁ = { nwb with devices := nwb.devices ++ ds } := by
    rcases hstep1 with ⟨-, hadd⟩ | ⟨-, rfl⟩
    · exact add_devices_eq hadd
    · exact ⟨[], by simp⟩
  have hdndev1 : (deviceNames nwb).Nodup → (deviceNames nwb₁).Nodup := by
    rcases hstep1 with ⟨-, hadd⟩ | ⟨-, rfl⟩
    · exact add_devices_nodup hadd
    · exact id
  obtain ⟨ds, hds⟩ := hdev1
  have hg1eq : nwb₁.electrode_groups = nwb.electrode_groups := by rw [hds]
  have hgn1 : groupNames nwb₁ = groupNames nwb := by
    rw [groupNames, hg1eq]
    rfl
  have hdn1 : deviceNames nwb₂ = deviceNames nwb₁ := by
    rw [hn2]
    rfl
  rcases hstep4 with ⟨hempty, hfall⟩ | ⟨hne2, rfl, rfl⟩
  · obtain ⟨dh, d0c, hh, hd0c, hout⟩ := addGroupsFallback_ok_inv hfall
    have h1 : nwb' = _ := hout
    have hg2 : nwb₂.electrode_groups = [] := List.isEmpty_iff.mp hempty
    have hdn' : deviceNames nwb' = deviceNames nwb₁ := by
      rw [h1]
      exact hdn1
    refine ⟨ds, gs1 ++ (uniqueGroupIds r).map (fun gid =>
      ({ name := pyStr gid, description := d0c.description,
         location := d0c.location, device := dh.name } : ElectrodeGroup)),
      ?_, ?_, ?_, ?_⟩
    · rw [h1, hn2, hds]
      simp [extendNwb]
    · intro _
      have hnames : groupNames nwb' = (uniqueGroupIds r).map pyStr := by
        rw [h1, groupNames]
        show List.map _ (nwb₂.electrode_groups ++ _) = _
        rw [hg2, List.nil_append, List.map_map]
        rfl
      rw [hnames]
      exact (npUnique_nodup _).map pyStr_injective
    · intro hnd
      rw [hdn']
      exact hdndev1 hnd
    · intro g hg
      rcases List.mem_append.mp hg with hg | hg
      · rw [hdn']
        rw [← hdn1] at href1
        have := href1 g hg
        rw [hdn1] at this
        exact this
      · obtain ⟨gid, -, rfl⟩ := List.mem_map.mp hg
        show dh.name ∈ deviceNames nwb'
        rw [hdn', ← hdn1]
        exact List.mem_map.mpr ⟨dh, List.mem_of_mem_head? hh, rfl⟩
  · refine ⟨ds, gs1, ?_, ?_, ?_, ?_⟩
    · rw [hn2, hds]
      simp [extendNwb]
    · intro hnd
      refine addGroupsLoop_nodup r _ _ _ _ _ _ hloop ?_
      rw [hgn1]
      exact hnd
    · intro hnd
      rw [hdn1]
      exact hdndev1 hnd
    · intro g hg
      have := href1 g hg
      rw [← hdn1] at this
      exact this

/-- C1: `add_devices` and `add_electrode_groups` are idempotent upserts. On
every successful run: (1) `add_devices` only appends devices (existing
entries, groups, electrodes and epochs are untouched), preserves device-name
uniqueness, and a second invocation with the same arguments returns the same
file; (2) per entry (list-shaped `Device` metadata with distinct defaulted
names): a device whose (defaulted) name already exists is left unchanged and
no duplicate is created, an absent one is created as the metadata entry
merged over the fixed defaults; (3) `add_electrode_groups` only appends
devices and groups, preserves group-name uniqueness, and a second invocation
with the caller-observed metadata returns the same file and metadata;
(4) per entry (with the computed `defaults` list non-empty and distinct
defaulted names): a group whose name already exists is left unchanged, an
absent one is created as the metadata entry merged over `defaults[0]`. -/
theorem C1_idempotent_upserts :
    (∀ (r : Recording) (nwb : NWBFile) (md : Option Metadata) (nwb' : NWBFile),
      add_devices r nwb md = .ok nwb' →
      (∃ ds, nwb' = { nwb with devices := nwb.devices ++ ds }) ∧
      ((deviceNames nwb).Nodup → (deviceNames nwb').Nodup) ∧
      add_devices r nwb' md = .ok nwb') ∧
    (∀ (r : Recording) (nwb : NWBFile) (l : List DeviceMeta)
      (eg : Option (List GroupMeta)) (ee : Option (List ElecColMeta))
      (nwb' : NWBFile),
      add_devices r nwb
        (some ⟨some ⟨some (.list l), eg, ee⟩⟩) = .ok nwb' →
      (l.map devMetaName).Nodup →
      ∀ dev ∈ l,
        (devMetaName dev ∈ deviceNames nwb →
          lookupDevice nwb' (devMetaName dev) =
            lookupDevice nwb (devMetaName dev)) ∧
        (devMetaName dev ∉ deviceNames nwb →
          lookupDevice nwb' (devMetaName dev) = some (mergeDevice dev))) ∧
    (∀ (r : Recording) (nwb : NWBFile) (md : Option Metadata) (nwb' : NWBFile)
      (md' : Option Metadata) (ws : List Warning),
      add_electrode_groups r nwb md = .ok (nwb', md', ws) →
      (∃ ds gs, nwb' = extendNwb nwb ds gs) ∧
      ((groupNames nwb).Nodup → (groupNames nwb').Nodup) ∧
      add_electrode_groups r nwb' md' = .ok (nwb', md', [])) ∧
    (∀ (r : Recording) (nwb : NWBFile) (dd : Option DeviceSlot)
      (gl : List GroupMeta) (ee : Option (List ElecColMeta))
      (defaults : List GroupDefault) (d0 : GroupDefault)
      (nwb' : NWBFile) (md' : Option Metadata) (ws : List Warning),
      nwb.devices.isEmpty = false →
      buildGroupDefaults nwb (uniqueGroupIds r) = .ok defaults →
      defaults.head? = some d0 →
      (gl.map (fun g => g.name.getD d0.name)).Nodup →
      add_electrode_groups r nwb
        (some ⟨some ⟨dd, some gl, ee⟩⟩) = .ok (nwb', md', ws) →
      ∀ grp ∈ gl,
        (grp.name.getD d0.name ∈ groupNames nwb →
          lookupGroup nwb' (grp.name.getD d0.name) =
            lookupGroup nwb (grp.name.getD d0.name)) ∧
        (grp.name.getD d0.name ∉ groupNames nwb →
          lookupGroup nwb' (grp.name.getD d0.name) =
            some (mergeGroup d0 grp))) := by
  refine ⟨?_, ?_, ?_, ?_⟩
  · intro r nwb md nwb' h
    exact ⟨add_devices_eq h, add_devices_nodup h, add_devices_idem h⟩
  · intro r nwb l eg ee nwb' h hnd dev hdev
    obtain ⟨slot, hslot, hloop⟩ := add_devices_ok_inv h
    have hes : effectiveDeviceSlot (some ⟨some ⟨some (.list l), eg, ee⟩⟩) =
        .ok (.list l) := rfl
    rw [hes] at hslot
    have hs := Except.ok.inj hslot
    subst hs
    rw [addDevicesLoop] at hloop
    have hv := Except.ok.inj hloop
    rw [← hv]
    exact addDevicesListLoop_lookup l nwb hnd dev hdev
  · intro r nwb md nwb' md' ws h
    obtain ⟨ds, gs, hfr, hnd, -, -⟩ :=
      add_electrode_groups_shape r nwb md nwb' md' ws h
    exact ⟨⟨ds, gs, hfr⟩, hnd, add_electrode_groups_idem r nwb md nwb' md' ws h⟩
  · intro r nwb dd gl ee defaults d0 nwb' md' ws h0 hdefH hhead hnd h grp hgrp
    obtain ⟨nwb₁, defaults', nwb₂, ws₁, hstep1, hdef, hloop, hstep4, hmd⟩ :=
      add_electrode_groups_ok_inv r nwb _ nwb' md' ws h
    rcases hstep1 with ⟨hT, -⟩ | ⟨-, heq1⟩
    · rw [h0] at hT
      exact Bool.noConfusion hT
    rw [heq1] at hdef hloop
    rw [hdefH] at hdef
    have hde := Except.ok.inj hdef
    subst hde
    have hloop' : addGroupsLoop r (some d0) nwb [] gl = .ok (nwb₂, ws₁) := by
      rw [← hhead]
      exact hloop
    rcases hstep4 with ⟨hempty, -⟩ | ⟨-, heq2, -⟩
    · have hm := addGroupsLoop_mem r gl d0 nwb [] nwb₂ ws₁ hloop' grp hgrp
      rw [groupNames, List.isEmpty_iff.mp hempty] at hm
      simp at hm
    · rw [heq2]
      exact addGroupsLoop_lookup r gl d0 nwb [] nwb₂ ws₁ hnd hloop' grp hgrp

/-! ### Concrete fixtures for the upsert/invariant witnesses -/

def nwbW1 : NWBFile := ⟨[⟨"Device", "Ecephys probe."⟩], [], none, none⟩

def egW0 : ElectrodeGroup := ⟨"0", "no description", "unknown", "Device"⟩

def egW1 : ElectrodeGroup := ⟨"1", "no description", "unknown", "Device"⟩

def nwbW2 : NWBFile := ⟨[⟨"Device", "Ecephys probe."⟩], [egW0, egW1], none, none⟩

def nwbW4 : NWBFile := ⟨[⟨"Device", "Ecephys probe."⟩], [egW0], none, none⟩

def defaultsW : List GroupDefault :=
  [⟨"0", "no description", "unknown", "Device"⟩,
   ⟨"1", "no description", "unknown", "Device"⟩]

def d0W : GroupDefault := ⟨"0", "no description", "unknown", "Device"⟩

/-- Witness for C1 at concrete inputs: re-adding an existing device is the
identity; the default device is created as defaults-merged metadata; a second
`add_electrode_groups` run is the identity; a metadata group absent from the
file is created as the entry merged over `defaults[0]`. -/
theorem C1_witness :
    add_devices exRecording nwbW1 none = .ok nwbW1 ∧
    lookupDevice nwbW1 "Device" = some ⟨"Device", "Ecephys probe."⟩ ∧
    add_electrode_groups exRecording nwbW2 none = .ok (nwbW2, none, []) ∧
    lookupGroup nwbW4 "0" =
      some ⟨"0", "no description", "unknown", "Device"⟩ := by
  refine ⟨?_, ?_, ?_, ?_⟩
  · exact (C1_idempotent_upserts.1 exRecording emptyNWB none nwbW1
      (by decide)).2.2
  · exact (C1_idempotent_upserts.2.1 exRecording emptyNWB [deviceDefaults]
      none none nwbW1 (by decide) (by decide) deviceDefaults (by decide)).2
      (by decide)
  · exact (C1_idempotent_upserts.2.2.1 exRecording nwbW1 none nwbW2 none []
      (by decide)).2.2
  · exact (C1_idempotent_upserts.2.2.2 exRecording nwbW1 none
      [⟨some "0", none, none, none⟩] none defaultsW d0W nwbW4
      (some ⟨some ⟨none, some [⟨some "0", none, none, none⟩], none⟩⟩) []
      (by decide) (by decide) (by decide) (by decide) (by decide)
      ⟨some "0", none, none, none⟩ (by decide)).2 (by decide)

/-! ### The referential invariant of the NWB file -/

/-- Does the `group` kwarg of an electrode row (when present) reference an
electrode group that exists in the file? -/
def groupKwargOk (n : NWBFile) (kw : Dict PVal) : Bool :=
  match dictGet kw "group" with
  | none => true
  | some (.groupRef g) => (groupNames n).contains g
  | some _ => false

/-- Every electrode row references an existing electrode group. -/
def rowRefsOk (n : NWBFile) : Bool :=
  match n.electrodes with
  | none => true
  | some t => t.rows.all (fun row => groupKwargOk n row.kwargs)

/-- Every electrode group references an existing device. -/
def groupRefsOk (n : NWBFile) : Bool :=
  n.electrode_groups.all (fun g => (deviceNames n).contains g.device)

/-- The referential invariant: group→device and row→group references are
valid, and device and group names are duplicate-free. -/
def NwbInv (n : NWBFile) : Bool :=
  groupRefsOk n && rowRefsOk n && namesNodup (deviceNames n) &&
    namesNodup (groupNames n)

theorem deviceNames_extend (nwb : NWBFile) (ds : List Device)
    (gs : List ElectrodeGroup) :
    deviceNames (extendNwb nwb ds gs) = deviceNames nwb ++ ds.map Device.name := by
  simp [deviceNames, extendNwb]

theorem groupNames_extend (nwb : NWBFile) (ds : List Device)
    (gs : List ElectrodeGroup) :
    groupNames (extendNwb nwb ds gs) =
      groupNames nwb ++ gs.map ElectrodeGroup.name := by
  simp [groupNames, extendNwb]

theorem groupKwargOk_mono {n n' : NWBFile} {kw : Dict PVal}
    (hsub : ∀ x, x ∈ groupNames n → x ∈ groupNames n')
    (h : groupKwargOk n kw = true) : groupKwargOk n' kw = true := by
  rw [groupKwargOk] at h ⊢
  split at h
  · rfl
  · rename_i g hg
    exact List.elem_eq_true_of_mem (hsub g (List.mem_of_elem_eq_true h))
  · exact Bool.noConfusion h

/-- Extending devices and groups preserves the invariant provided the
appended groups reference devices of the extended file and uniqueness
survives. -/
theorem NwbInv_extend (nwb : NWBFile) (ds : List Device)
    (gs : List ElectrodeGroup)
    (hinv : NwbInv nwb = true)
    (hgs : ∀ g ∈ gs, g.device ∈ deviceNames (extendNwb nwb ds gs))
    (hnd : (deviceNames (extendNwb nwb ds gs)).Nodup)
    (hng : (groupNames (extendNwb nwb ds gs)).Nodup) :
    NwbInv (extendNwb nwb ds gs) = true := by
  rw [NwbInv] at hinv
  simp only [Bool.and_eq_true] at hinv
  obtain ⟨⟨⟨hgr, hrr⟩, -⟩, -⟩ := hinv
  rw [NwbInv]
  simp only [Bool.and_eq_true]
  refine ⟨⟨⟨?_, ?_⟩, (namesNodup_iff _).mpr hnd⟩, (namesNodup_iff _).mpr hng⟩
  · rw [groupRefsOk]
    show (nwb.electrode_groups ++ gs).all _ = true
    rw [List.all_append, Bool.and_eq_true]
    constructor
    · rw [List.all_eq_true]
      intro g hg
      rw [groupRefsOk, List.all_eq_true] at hgr
      have := hgr g hg
      rw [deviceNames_extend]
      exact contains_append_left _ _ _ this
    · rw [List.all_eq_true]
      intro g hg
      exact List.elem_eq_true_of_mem (hgs g hg)
  · rw [rowRefsOk] at hrr ⊢
    show (match nwb.electrodes with
      | none => true
      | some t => t.rows.all (fun row =>
          groupKwargOk (extendNwb nwb ds gs) row.kwargs)) = true
    split at hrr
    · rfl
    · rw [List.all_eq_true] at hrr ⊢
      intro row hrow
      refine groupKwargOk_mono ?_ (hrr row hrow)
      intro x hx
      rw [groupNames_extend]
      exact List.mem_append_left _ hx

/-- `add_devices` preserves the referential invariant. -/
theorem add_devices_inv {r : Recording} {nwb : NWBFile} {md : Option Metadata}
    {nwb' : NWBFile} (h : add_devices r nwb md = .ok nwb')
    (hinv : NwbInv nwb = true) : NwbInv nwb' = true := by
  obtain ⟨ds, hds⟩ := add_devices_eq h
  have hext : nwb' = extendNwb nwb ds [] := by
    rw [hds]
    simp [extendNwb]
  rw [hext]
  refine NwbInv_extend nwb ds [] hinv (by simp) ?_ ?_
  · rw [← hext]
    refine add_devices_nodup h ?_
    rw [NwbInv] at hinv
    simp only [Bool.and_eq_true] at hinv
    exact (namesNodup_iff _).mp hinv.1.2
  · rw [groupNames_extend]
    simp only [List.map_nil, List.append_nil]
    rw [NwbInv] at hinv
    simp only [Bool.and_eq_true] at hinv
    exact (namesNodup_iff _).mp hinv.2

/-- `add_electrode_groups` preserves the referential invariant. -/
theorem add_electrode_groups_inv {r : Recording} {nwb : NWBFile}
    {md : Option Metadata} {nwb' : NWBFile} {md' : Option Metadata}
    {ws : List Warning}
    (h : add_electrode_groups r nwb md = .ok (nwb', md', ws))
    (hinv : NwbInv nwb = true) : NwbInv nwb' = true := by
  obtain ⟨ds, gs, hfr, hgnd, hdnd, href⟩ :=
    add_electrode_groups_shape r nwb md nwb' md' ws h
  rw [NwbInv] at hinv
  simp only [Bool.and_eq_true] at hinv
  rw [hfr]
  refine NwbInv_extend nwb ds gs ?_ ?_ ?_ ?_
  · rw [NwbInv]
    simp only [Bool.and_eq_true]
    exact hinv
  · intro g hg
    rw [← hfr]
    exact href g hg
  · rw [← hfr]
    exact hdnd ((namesNodup_iff _).mp hinv.1.2)
  · rw [← hfr]
    exact hgnd ((namesNodup_iff _).mp hinv.2)

theorem groupKwargOk_set_other {n : NWBFile} {kw : Dict PVal} {k : String}
    {v : PVal} (hk : k ≠ "group") (h : groupKwargOk n kw = true) :
    groupKwargOk n (dictSet kw k v) = true := by
  rw [groupKwargOk, dictGet_dictSet_ne kw k "group" v hk]
  rw [groupKwargOk] at h
  exact h

theorem groupKwargOk_set_group {n : NWBFile} {kw : Dict PVal} {g : String}
    {v : PVal} (hmem : g ∈ groupNames n) :
    groupKwargOk n (dictSet (dictSet kw "group" (.groupRef g)) "group_name" v)
      = true := by
  rw [groupKwargOk, dictGet_dictSet_ne _ _ _ _ (by decide),
    dictGet_dictSet_self]
  exact List.elem_eq_true_of_mem hmem

theorem groupKwargOk_defaultEFields (n : NWBFile) :
    groupKwargOk n defaultEFields = true := rfl

/-- Appending a row whose `group` kwarg is valid preserves the invariant. -/
theorem appendElectrodeRow_inv {nwb : NWBFile} {row : ElectrodeRow}
    (hinv : NwbInv nwb = true) (hrow : groupKwargOk nwb row.kwargs = true) :
    NwbInv (appendElectrodeRow nwb row) = true := by
  rw [NwbInv] at hinv ⊢
  simp only [Bool.and_eq_true] at hinv ⊢
  obtain ⟨⟨⟨hgr, hrr⟩, hnd⟩, hng⟩ := hinv
  cases he : nwb.electrodes with
  | none =>
    rw [appendElectrodeRow, he]
    refine ⟨⟨⟨hgr, ?_⟩, hnd⟩, hng⟩
    rw [rowRefsOk]
    show List.all [row] _ = true
    simp only [List.all_cons, List.all_nil, Bool.and_true]
    exact hrow
  | some t =>
    rw [appendElectrodeRow, he]
    refine ⟨⟨⟨hgr, ?_⟩, hnd⟩, hng⟩
    rw [rowRefsOk] at hrr
    rw [he] at hrr
    rw [rowRefsOk]
    show (t.rows ++ [row]).all _ = true
    rw [List.all_append, Bool.and_eq_true]
    constructor
    · exact hrr
    · simp only [List.all_cons, List.all_nil, Bool.and_true]
      exact hrow

/-- Adding a table column never breaks the invariant. -/
theorem addElectrodeColumn_inv {nwb : NWBFile} {name desc : String}
    (hinv : NwbInv nwb = true) :
    NwbInv (addElectrodeColumn nwb name desc) = true := by
  rw [NwbInv] at hinv ⊢
  simp only [Bool.and_eq_true] at hinv ⊢
  obtain ⟨⟨⟨hgr, hrr⟩, hnd⟩, hng⟩ := hinv
  cases he : nwb.electrodes with
  | none =>
    rw [addElectrodeColumn, he]
    exact ⟨⟨⟨hgr, rfl⟩, hnd⟩, hng⟩
  | some t =>
    rw [addElectrodeColumn, he]
    refine ⟨⟨⟨hgr, ?_⟩, hnd⟩, hng⟩
    rw [rowRefsOk] at hrr
    rw [he] at hrr
    exact hrr

theorem addColumnsLoop_inv :
    ∀ (cols : Dict ColData) (nwb : NWBFile), NwbInv nwb = true →
      NwbInv (addColumnsLoop nwb cols) = true := by
  intro cols
  induction cols with
  | nil => intro nwb h; exact h
  | cons c cs ih =>
    intro nwb h
    have hstep : addColumnsLoop nwb (c :: cs) =
        addColumnsLoop (if c.1 ∈ defaultEFieldNames then nwb
          else addElectrodeColumn nwb c.1 c.2.description) cs := rfl
    rw [hstep]
    split
    · exact ih nwb h
    · exact ih _ (addElectrodeColumn_inv h)

/-- The per-channel column fold preserves the invariant and keeps the `group`
kwarg valid, provided no column is literally named `group`. -/
theorem elecColumnsFold_inv (r : Recording) (j ch : Nat) :
    ∀ (cols : Dict ColData) (kwargs : Dict PVal) (nwb : NWBFile)
      (ws : List Warning) (out : Dict PVal × NWBFile × List Warning),
      elecColumnsFold r j ch kwargs nwb ws cols = .ok out →
      (∀ p ∈ cols, p.1 ≠ "group") →
      NwbInv nwb = true → groupKwargOk nwb kwargs = true →
      NwbInv out.2.1 = true ∧ groupKwargOk out.2.1 out.1 = true := by
  intro cols
  induction cols with
  | nil =>
    intro kwargs nwb ws out h hcols hinv hkw
    have hv := Except.ok.inj h
    rw [← hv]
    exact ⟨hinv, hkw⟩
  | cons c cs ih =>
    intro kwargs nwb ws out h hcols hinv hkw
    obtain ⟨name, desc⟩ := c
    have hname_ne : name ≠ "group" := hcols (name, desc) (List.mem_cons_self _ _)
    have hcols' : ∀ p ∈ cs, p.1 ≠ "group" :=
      fun p hp => hcols p (List.mem_cons_of_mem _ hp)
    rw [elecColumnsFold] at h
    simp only [Bind.bind, Except.bind, pure, Except.pure] at h
    split at h
    · -- group_name column
      split at h
      · -- data key present
        rename_i dd hdd
        split at h
        · -- group already present
          rename_i hin
          split at h
          · exact Except.noConfusion h
          · rename_i g hg
            refine ih _ _ _ _ h hcols' hinv ?_
            refine groupKwargOk_set_group ?_
            exact List.mem_map.mpr ⟨g, lookupGroup_mem_of_some hg, rfl⟩
        · -- group synthesized via add_electrode_groups
          rename_i hnotin
          split at h
          · exact Except.noConfusion h
          · rename_i trip htrip
            have htrip' : add_electrode_groups r nwb
                (some (missingGroupMetadata (pvalStr (list_get dd j
                  (PVal.str "0"))))) = .ok (trip.1, trip.2.1, trip.2.2) := htrip
            have hinv' : NwbInv trip.1 = true :=
              add_electrode_groups_inv htrip' hinv
            split at h
            · exact Except.noConfusion h
            · rename_i g hg
              refine ih _ _ _ _ h hcols' hinv' ?_
              refine groupKwargOk_set_group ?_
              exact List.mem_map.mpr ⟨g, lookupGroup_mem_of_some hg, rfl⟩
      · exact Except.noConfusion h
    · -- ordinary column
      split at h
      · -- has data
        rename_i dd hdd
        split at h
        · exact Except.noConfusion h
        · rename_i v hv
          exact ih _ _ _ _ h hcols' hinv (groupKwargOk_set_other hname_ne hkw)
      · exact ih _ _ _ _ h hcols' hinv hkw

theorem groupKwargOk_relxy (n : NWBFile) (a b : Rat) :
    groupKwargOk n (dictSet (dictSet defaultEFields "rel_x" (.num a))
      "rel_y" (.num b)) = true := by
  refine groupKwargOk_set_other (by decide) ?_
  refine groupKwargOk_set_other (by decide) ?_
  exact groupKwargOk_defaultEFields n

/-- The per-channel electrode loop preserves the invariant. -/
theorem addElectrodesLoop_inv (r : Recording) (elecCols : Dict ColData)
    (metaEs : List ElecColMeta) (ids0 : List Nat)
    (hcols : ∀ p ∈ elecCols, p.1 ≠ "group") :
    ∀ (chs : List Nat) (j : Nat) (nwb : NWBFile) (ws : List Warning)
      (out : NWBFile × List Warning),
      addElectrodesLoop r elecCols metaEs ids0 j chs nwb ws = .ok out →
      NwbInv nwb = true → NwbInv out.1 = true := by
  intro chs
  induction chs with
  | nil =>
    intro j nwb ws out h hinv
    have hv := Except.ok.inj h
    rw [← hv]
    exact hinv
  | cons ch rest ih =>
    intro j nwb ws out h hinv
    rw [addElectrodesLoop] at h
    split at h
    · exact ih _ _ _ _ h hinv
    · simp only [Bind.bind, Except.bind, pure, Except.pure] at h
      split at h
      · split at h
        · exact Except.noConfusion h
        · rename_i l0 hl0
          split at h
          · exact Except.noConfusion h
          · rename_i l1 hl1
            split at h
            · exact Except.noConfusion h
            · rename_i trip htrip
              have hfold := elecColumnsFold_inv r j ch elecCols _ _ _ _
                (show elecColumnsFold r j ch _ nwb ws elecCols =
                  .ok (trip.1, trip.2.1, trip.2.2) from htrip)
                hcols hinv (groupKwargOk_relxy nwb _ _)
              split at h
              · exact ih _ _ _ _ h (appendElectrodeRow_inv hfold.1 hfold.2)
              · split at h
                · rename_i hgin
                  refine ih _ _ _ _ h (appendElectrodeRow_inv hfold.1 ?_)
                  exact groupKwargOk_set_group hgin
                · exact ih _ _ _ _ h hfold.1
      · split at h
        · exact Except.noConfusion h
        · rename_i trip htrip
          have hfold := elecColumnsFold_inv r j ch elecCols _ _ _ _
            (show elecColumnsFold r j ch _ nwb ws elecCols =
              .ok (trip.1, trip.2.1, trip.2.2) from htrip)
            hcols hinv (groupKwargOk_defaultEFields nwb)
          split at h
          · exact ih _ _ _ _ h (appendElectrodeRow_inv hfold.1 hfold.2)
          · split at h
            · rename_i hgin
              refine ih _ _ _ _ h (appendElectrodeRow_inv hfold.1 ?_)
              exact groupKwargOk_set_group hgin
            · exact ih _ _ _ _ h hfold.1

theorem foldl_preserve {α β : Type} (P : β → Prop) (f : β → α → β)
    (hf : ∀ b a, P b → P (f b a)) :
    ∀ (l : List α) (b : β), P b → P (l.foldl f b) := by
  intro l
  induction l with
  | nil => intro b hb; exact hb
  | cons x xs ihx => intro b hb; exact ihx _ (hf b x hb)

theorem dictSet_mem {α : Type} (d : Dict α) (k : String) (v : α) :
    ∀ p ∈ dictSet d k v, p.1 = k ∨ p ∈ d := by
  induction d with
  | nil =>
    intro p hp
    rw [dictSet] at hp
    rcases List.mem_singleton.mp hp with rfl
    exact Or.inl rfl
  | cons q rest ih =>
    intro p hp
    rw [dictSet] at hp
    split at hp
    · rcases List.mem_cons.mp hp with rfl | hp
      · exact Or.inl rfl
      · exact Or.inr (List.mem_cons_of_mem _ hp)
    · rcases List.mem_cons.mp hp with rfl | hp
      · exact Or.inr (List.mem_cons_self _ _)
      · rcases ih p hp with hk | hm
        · exact Or.inl hk
        · exact Or.inr (List.mem_cons_of_mem _ hm)

/-- `dictModify` never changes keys. -/
theorem dictModify_mem_keys {α : Type} (d : Dict α) (k : String) (f : α → α) :
    ∀ p ∈ dictModify d k f, ∃ q ∈ d, p.1 = q.1 := by
  induction d with
  | nil =>
    intro p hp
    rw [dictModify] at hp
    exact absurd hp (List.not_mem_nil p)
  | cons q rest ih =>
    intro p hp
    rw [dictModify] at hp
    split at hp
    · rcases List.mem_cons.mp hp with rfl | hp
      · rename_i hq
        exact ⟨q, List.mem_cons_self _ _, hq.symm⟩
      · exact ⟨p, List.mem_cons_of_mem _ hp, rfl⟩
    · rcases List.mem_cons.mp hp with rfl | hp
      · exact ⟨p, List.mem_cons_self _ _, rfl⟩
      · obtain ⟨q', hq', hpq⟩ := ih p hp
        exact ⟨q', List.mem_cons_of_mem _ hq', hpq⟩

theorem no_group_dictSet {d : Dict ColData} {k : String} {v : ColData}
    (hd : ∀ p ∈ d, p.1 ≠ "group") (hk : k ≠ "group") :
    ∀ p ∈ dictSet d k v, p.1 ≠ "group" := by
  intro p hp
  rcases dictSet_mem d k v p hp with h1 | h1
  · rw [h1]
    exact hk
  · exact hd p h1

theorem no_group_dictModify {d : Dict ColData} {k : String}
    {f : ColData → ColData} (hd : ∀ p ∈ d, p.1 ≠ "group") :
    ∀ p ∈ dictModify d k f, p.1 ≠ "group" := by
  intro p hp
  obtain ⟨q, hq, hpq⟩ := dictModify_mem_keys d k f p hp
  rw [hpq]
  exact hd q hq

/-- The recording-derived columns are never named `group` (the property is
renamed to `group_name`). -/
theorem buildPropColumns_no_group (r : Recording) (ex : List String) :
    ∀ p ∈ buildPropColumns r ex, p.1 ≠ "group" := by
  rw [buildPropColumns]
  refine foldl_preserve
    (fun cols : Dict ColData => ∀ p ∈ cols, p.1 ≠ "group") _ ?_ _ _ (by simp)
  intro cols prop hP
  dsimp only
  split
  · exact hP
  · refine no_group_dictSet hP ?_
    split <;> first
      | decide
      | (split <;> first | decide | assumption)

/-- The metadata-supplied columns are never named `group` (enforced by the
assert). -/
theorem applyMetaColumns_no_group (numC : Nat) :
    ∀ (elist : List ElecColMeta) (cols : Dict ColData) (acc : List ElecColMeta)
      (out : Dict ColData × List ElecColMeta),
      applyMetaColumns numC cols acc elist = .ok out →
      (∀ p ∈ cols, p.1 ≠ "group") →
      (∀ x ∈ elist, x.name ≠ some "group") →
      ∀ p ∈ out.1, p.1 ≠ "group" := by
  intro elist
  induction elist with
  | nil =>
    intro cols acc out h hc he
    have hv := Except.ok.inj h
    rw [← hv]
    exact hc
  | cons x xs ihx =>
    intro cols acc out h hc he
    rw [applyMetaColumns] at h
    simp only [Bind.bind, Except.bind, pure, Except.pure] at h
    have he' : ∀ y ∈ xs, y.name ≠ some "group" :=
      fun y hy => he y (List.mem_cons_of_mem _ hy)
    split at h
    · rename_i n hn
      have hne : n ≠ "group" := by
        intro hc2
        exact he x (List.mem_cons_self _ _) (by rw [hn, hc2])
      have hc1 : ∀ p ∈ (if dictHas cols n then cols
          else dictSet cols n ⟨n, none⟩), p.1 ≠ "group" := by
        split
        · exact hc
        · exact no_group_dictSet hc hne
      have hc2 : ∀ p ∈ (match x.description with
          | some ds => dictModify (if dictHas cols n then cols
              else dictSet cols n ⟨n, none⟩) n
              (fun cd => { cd with description := ds })
          | none => (if dictHas cols n then cols
              else dictSet cols n ⟨n, none⟩)), p.1 ≠ "group" := by
        split
        · exact no_group_dictModify hc1
        · exact hc1
      split at h
      · rename_i dd hdd
        split at h
        · exact ihx _ _ _ h (no_group_dictModify hc2) he'
        · exact Except.noConfusion h
      · exact ihx _ _ _ h hc2 he'
    · exact Except.noConfusion h

/-- `add_electrodes` preserves the referential invariant. -/
theorem add_electrodes_inv {r : Recording} {nwb : NWBFile}
    {md : Option Metadata} {wsc : Bool} {ex : List String}
    {nwb' : NWBFile} {md' : Option Metadata} {ws' : List Warning}
    (h : add_electrodes r nwb md wsc ex = .ok (nwb', md', ws'))
    (hinv : NwbInv nwb = true) : NwbInv nwb' = true := by
  unfold add_electrodes at h
  simp only [Bind.bind, Except.bind, pure, Except.pure] at h
  split at h
  · split at h
    · exact Except.noConfusion h
    · rename_i trip htrip
      have hinv1 : NwbInv trip.1 = true :=
        add_electrode_groups_inv
          (show add_electrode_groups r nwb md =
            .ok (trip.1, trip.2.1, trip.2.2) from htrip) hinv
      split at h
      · exact Except.noConfusion h
      · rename_i hwf
        split at h
        · exact Except.noConfusion h
        · rename_i hng
          split at h
          · exact Except.noConfusion h
          · rename_i amc hamc
            split at h
            · exact Except.noConfusion h
            · split at h
              · exact Except.noConfusion h
              · rename_i loopres hloop
                split at h
                · exact Except.noConfusion h
                · rename_i hnotnone
                  have hn : loopres.1 = nwb' :=
                    congrArg (fun t => t.1) (Except.ok.inj h)
                  rw [← hn]
                  have hcols2 : ∀ p ∈ amc.1, p.1 ≠ "group" := by
                    refine applyMetaColumns_no_group r.channel_ids.length _
                      _ _ _
                      (show applyMetaColumns r.channel_ids.length
                        (buildPropColumns r ex) [] _ =
                          .ok (amc.1, amc.2) from hamc)
                      (buildPropColumns_no_group r ex) ?_
                    rw [not_not, List.all_eq_true] at hng
                    intro x hx
                    exact of_decide_eq_true (hng x hx)
                  exact addElectrodesLoop_inv r amc.1 amc.2 _ hcols2
                    r.channel_ids 0 _ [] loopres hloop
                    (addColumnsLoop_inv _ _ hinv1)
  · split at h
    · exact Except.noConfusion h
    · rename_i hwf
      split at h
      · exact Except.noConfusion h
      · rename_i hng
        split at h
        · exact Except.noConfusion h
        · rename_i amc hamc
          split at h
          · exact Except.noConfusion h
          · split at h
            · exact Except.noConfusion h
            · rename_i loopres hloop
              split at h
              · exact Except.noConfusion h
              · rename_i hnotnone
                have hn : loopres.1 = nwb' :=
                  congrArg (fun t => t.1) (Except.ok.inj h)
                rw [← hn]
                have hcols2 : ∀ p ∈ amc.1, p.1 ≠ "group" := by
                  refine applyMetaColumns_no_group r.channel_ids.length _
                    _ _ _
                    (show applyMetaColumns r.channel_ids.length
                      (buildPropColumns r ex) [] _ =
                        .ok (amc.1, amc.2) from hamc)
                    (buildPropColumns_no_group r ex) ?_
                  rw [not_not, List.all_eq_true] at hng
                  intro x hx
                  exact of_decide_eq_true (hng x hx)
                exact addElectrodesLoop_inv r amc.1 amc.2 _ hcols2
                  r.channel_ids 0 _ [] loopres hloop
                  (addColumnsLoop_inv _ _ hinv)

/-- C6: after every successful run of `add_devices`, `add_electrode_groups`
and `add_electrodes` the file satisfies the referential invariant: every
electrode group references a device present in `nwbfile.devices`, every
electrode row's `group` kwarg references an electrode group present in
`nwbfile.electrode_groups`, and device and electrode-group names are
duplicate-free — provided the input file already satisfied it. -/
theorem C6_referential_invariants :
    (∀ (r : Recording) (nwb : NWBFile) (md : Option Metadata) (nwb' : NWBFile),
      add_devices r nwb md = .ok nwb' →
      NwbInv nwb = true → NwbInv nwb' = true) ∧
    (∀ (r : Recording) (nwb : NWBFile) (md : Option Metadata) (nwb' : NWBFile)
      (md' : Option Metadata) (ws : List Warning),
      add_electrode_groups r nwb md = .ok (nwb', md', ws) →
      NwbInv nwb = true → NwbInv nwb' = true) ∧
    (∀ (r : Recording) (nwb : NWBFile) (md : Option Metadata) (wsc : Bool)
      (ex : List String) (nwb' : NWBFile) (md' : Option Metadata)
      (ws : List Warning),
      add_electrodes r nwb md wsc ex = .ok (nwb', md', ws) →
      NwbInv nwb = true → NwbInv nwb' = true) :=
  ⟨fun _ _ _ _ h hinv => add_devices_inv h hinv,
   fun _ _ _ _ _ _ h hinv => add_electrode_groups_inv h hinv,
   fun _ _ _ _ _ _ _ _ h hinv => add_electrodes_inv h hinv⟩

def rowW0 : ElectrodeRow :=
  ⟨0, [("x", .nan), ("y", .nan), ("z", .nan), ("imp", .num (-1)),
    ("location", .str "unknown"), ("filtering", .str "none"),
    ("group_name", .str "0"), ("rel_x", .num 1), ("rel_y", .num 2),
    ("foo", .num 3), ("group", .groupRef "0")]⟩

def rowW1 : ElectrodeRow :=
  ⟨1, [("x", .nan), ("y", .nan), ("z", .nan), ("imp", .num (-1)),
    ("location", .str "unknown"), ("filtering", .str "none"),
    ("group_name", .str "1"), ("rel_x", .num 1), ("rel_y", .num 2),
    ("foo", .num 5), ("group", .groupRef "1")]⟩

def nwbW6 : NWBFile :=
  ⟨[⟨"Device", "Ecephys probe."⟩], [egW0, egW1],
    some ⟨[("foo", "foo")], [rowW0, rowW1]⟩, none⟩

/-- Witness for C6: concrete successful runs of the three builders from a
fresh file, each preserving the invariant. -/
theorem C6_witness :
    NwbInv nwbW1 = true ∧ NwbInv nwbW2 = true ∧ NwbInv nwbW6 = true := by
  refine ⟨?_, ?_, ?_⟩
  · exact C6_referential_invariants.1 exRecording emptyNWB none nwbW1
      (by decide) (by decide)
  · exact C6_referential_invariants.2.1 exRecording nwbW1 none nwbW2 none []
      (by decide) (by decide)
  · exact C6_referential_invariants.2.2 exRecording nwbW2 none true [] nwbW6
      none [] (by decide) (by decide)

end SpikeInterface
